import Mathlib

/-!
Shallow embedding of the trace-tally core: the task-tree state machine
(`TaskStore.apply` over `Action`, from src/task.rs) and the incremental
terminal renderer (`FrameWriter`, `TaskRenderer.render`, from src/writer.rs),
with theorems settling the frozen claims about them.

Modelling conventions:
- `TaskId` is `Nat`; the reserved `ROOT` identity is `0`.
- `IndexMap<TaskId, Task>` is an insertion-ordered association list
  `List (Nat × Task)`; `IndexSet<TaskId>` is an insertion-ordered duplicate-free
  `List Nat` (`insertId` appends only when absent, `List.erase` is shift_remove).
- Caller-defined payloads (`R::TaskData`, `R::EventData`) are `Nat`.
- `Instant`/`started_at` (wall-clock time) is not modelled; no claim touches it.
- Rust panics (`unwrap`, `panic!`) are modelled as `none` / `.error .fatal`.
- Unbounded Rust recursion is modelled with explicit fuel; the entry points
  pass fuel that is adequate on every store the program can build, and
  render-level theorems are conditional on the run returning `Ok`, so a
  fuel-exhausted run never satisfies their hypotheses.
-/

namespace TraceTally

/-- One task record (struct `Task` in src/task.rs): depth, status flags,
parent link, optional payload, event buffer (front = oldest) and the
insertion-ordered child set. `started_at` is omitted (wall-clock). -/
structure Task where
  depth : Nat
  completed : Bool
  cancelled : Bool
  parent : Option Nat
  data : Option Nat
  events : List Nat
  subtasks : List Nat
deriving Repr, DecidableEq

instance : Inhabited Task := ⟨⟨0, false, false, none, none, [], []⟩⟩

/-- `Task::new(depth, parent, data)`. -/
def Task.new (depth : Nat) (parent : Option Nat) (data : Option Nat) : Task :=
  { depth := depth, completed := false, cancelled := false,
    parent := parent, data := data, events := [], subtasks := [] }

/-- `IndexMap::get`: first (only) entry with the given key. -/
def findTask : List (Nat × Task) → Nat → Option Task
  | [], _ => none
  | (k, t) :: rest, id => if k = id then some t else findTask rest id

/-- `IndexMap::insert`: replace in place if the key exists, else append. -/
def insertTask : List (Nat × Task) → Nat → Task → List (Nat × Task)
  | [], id, t => [(id, t)]
  | (k, u) :: rest, id, t =>
    if k = id then (k, t) :: rest else (k, u) :: insertTask rest id t

/-- `IndexMap::get_mut` followed by a record update (no-op on a missing key). -/
def modifyTask : List (Nat × Task) → Nat → (Task → Task) → List (Nat × Task)
  | [], _, _ => []
  | (k, u) :: rest, id, f =>
    if k = id then (k, f u) :: rest else (k, u) :: modifyTask rest id f

/-- `IndexMap::shift_remove`: drop the entry, preserving the order of the rest. -/
def eraseTask : List (Nat × Task) → Nat → List (Nat × Task)
  | [], _ => []
  | (k, u) :: rest, id => if k = id then rest else (k, u) :: eraseTask rest id

/-- `IndexSet::insert`: append only when absent. -/
def insertId (l : List Nat) (id : Nat) : List Nat :=
  if id ∈ l then l else l ++ [id]

/-- The task arena (struct `TaskStore`): identity-keyed records plus the
retention bound `max_events`. -/
structure TaskStore where
  tasks : List (Nat × Task)
  max_events : Nat
deriving Repr, DecidableEq

/-- `TaskStore::with_max_events(n)`: only the virtual root, at depth 0 with no
parent and no payload. -/
def TaskStore.withMaxEvents (n : Nat) : TaskStore :=
  { tasks := [(0, Task.new 0 none none)], max_events := n }

/-- `TaskStore::new()`: the default retention bound is 64. -/
def TaskStore.new : TaskStore := TaskStore.withMaxEvents 64

/-- The four actions (enum `Action` in src/lib.rs). -/
inductive Action where
  | event (parent : Option Nat) (data : Nat)
  | taskStart (id : Nat) (parent : Option Nat) (data : Nat)
  | taskEnd (id : Nat)
  | cancelAll
deriving Repr, DecidableEq

/-- The retention loop in the `Action::Event` arm: after `push_back`,
`while events.len() > max_events { events.pop_front(); }` — drop the front
element while the buffer is longer than the bound. -/
def trimEvents (max : Nat) : List Nat → List Nat
  | [] => []
  | d :: rest => if rest.length + 1 > max then trimEvents max rest else d :: rest

/-- The `Action::CancelAll` queue loop: pop an id, set its cancelled flag
(`get_mut(&id).unwrap()` — a dangling id is a panic, modelled as `none`),
extend the queue with its children. Fuel models the unbounded Rust loop. -/
def cancelLoop : Nat → List (Nat × Task) → List Nat → Option (List (Nat × Task))
  | _, tasks, [] => some tasks
  | 0, _, _ :: _ => none
  | fuel + 1, tasks, id :: rest =>
    match findTask tasks id with
    | none => none
    | some t =>
      cancelLoop fuel (modifyTask tasks id (fun u => { u with cancelled := true }))
        (rest ++ t.subtasks)

/-- Generous fuel for `cancelLoop`: enough for every store in which each task
is queued at most once (every store the program builds). -/
def cancelFuel (tasks : List (Nat × Task)) : Nat :=
  tasks.length + (tasks.map (fun kt => kt.2.subtasks.length)).sum + 1

/-- The `TaskStart` parent resolution:
`parent.and_then(|id| contains_key(&id).then_some(id)).unwrap_or(ROOT)`. -/
def resolveParent (l : List (Nat × Task)) : Option Nat → Nat
  | some p => if (findTask l p).isSome then p else 0
  | none => 0

/-- `TaskStore::apply` (src/task.rs). `none` models a Rust panic.

- `Event`: `get_task_mut(parent)` maps `None` to ROOT and looks the key up;
  on a miss the event is silently dropped (no ROOT fallback for an unknown
  `Some` parent — contrast with `TaskStart`).
- `TaskStart`: an absent or unknown parent resolves to ROOT; the new record
  gets depth = resolved parent's depth + 1 and parent = the resolved id, is
  inserted, and is appended to the resolved parent's child set.
- `TaskEnd`: sets the completed flag when the id is present (ROOT included).
- `CancelAll`: breadth-first from ROOT's children. -/
def TaskStore.apply (s : TaskStore) : Action → Option TaskStore
  | .event parent data =>
    let key := parent.getD 0
    match findTask s.tasks key with
    | some _ =>
      let push := fun t => { t with events := trimEvents s.max_events (t.events ++ [data]) }
      some { s with tasks := modifyTask s.tasks key push }
    | none => some s
  | .taskStart id parent data =>
    let parentId : Nat := resolveParent s.tasks parent
    match findTask s.tasks parentId with
    | none => none
    | some pt =>
      let t := Task.new (pt.depth + 1) (some parentId) (some data)
      let tasks := insertTask s.tasks id t
      match findTask tasks parentId with
      | none => none
      | some _ =>
        let attach := fun p => { p with subtasks := insertId p.subtasks id }
        some { s with tasks := modifyTask tasks parentId attach }
  | .taskEnd id =>
    match findTask s.tasks id with
    | some _ =>
      some { s with tasks := modifyTask s.tasks id (fun t => { t with completed := true }) }
    | none => some s
  | .cancelAll =>
    match findTask s.tasks 0 with
    | none => none
    | some rt =>
      match cancelLoop (cancelFuel s.tasks) s.tasks rt.subtasks with
      | none => none
      | some tasks => some { s with tasks := tasks }

/-- Apply a sequence of actions in order (`TaskRenderer::update` repeatedly). -/
def applyList (s : TaskStore) : List Action → Option TaskStore
  | [] => some s
  | a :: rest =>
    match s.apply a with
    | none => none
    | some s' => applyList s' rest

/-- `TaskId::is_root`. -/
def TaskId.isRoot (id : Nat) : Bool := id == 0

/-- `impl From<usize> for TaskId`: panics (modelled `none`) exactly on 0. -/
def TaskId.fromUsize (id : Nat) : Option Nat :=
  match id with
  | 0 => none
  | _ => some id

/-- `TaskView::parent` (src/view.rs): `task(&id)` unwraps (outer `none` models
the panic on a missing id), then maps the record's parent link to a cursor. -/
def viewParent (s : TaskStore) (id : Nat) : Option (Option Nat) :=
  (findTask s.tasks id).map (fun t => t.parent)

/-- `TaskStore::remove` (src/task.rs): drop the record, detach the id from its
parent's child set (`get_task_mut(task.parent)` maps a `None` parent to ROOT
and skips a missing key), then recursively remove the children (the fold is
the `for subtask in task.subtasks { self.remove(subtask) }` loop). The Rust
recursion always terminates because the erase precedes the recursion, so
fuel = current map size (passed by `TaskStore.remove`) is always adequate. -/
def removeFuel : Nat → List (Nat × Task) → Nat → List (Nat × Task)
  | 0, tasks, _ => tasks
  | fuel + 1, tasks, id =>
    match findTask tasks id with
    | none => tasks
    | some t =>
      let tasks1 := eraseTask tasks id
      let tasks2 := modifyTask tasks1 (t.parent.getD 0)
        (fun p => { p with subtasks := p.subtasks.erase id })
      t.subtasks.foldl (fun acc ch => removeFuel fuel acc ch) tasks2

/-- The recursion loop of `remove`, as a named function (definitionally the
fold used inside `removeFuel`). -/
def removeList (fuel : Nat) (tasks : List (Nat × Task)) (l : List Nat) :
    List (Nat × Task) :=
  l.foldl (fun acc ch => removeFuel fuel acc ch) tasks

/-- `TaskStore::remove` entry point: fuel = map size (always adequate). -/
def TaskStore.remove (s : TaskStore) (id : Nat) : TaskStore :=
  { s with tasks := removeFuel s.tasks.length s.tasks id }

/-- The `for id in completed { self.tasks.remove(id) }` loop of `flush_root`. -/
def removeAll (tasks : List (Nat × Task)) : List Nat → List (Nat × Task)
  | [] => tasks
  | id :: rest => removeAll (removeFuel tasks.length tasks id) rest

/-! ## The renderer

The `Renderer` contract is pluggable; we model a representative implementor of
the documented shape (src/lib.rs doc example): `render_task_line` writes one
newline-terminated header line for the task, `render_event_line` writes one
newline-terminated line for the event, the frame hooks are the default no-ops,
and `render_task` is the default traversal of the trait. Output is modelled as
a list of `Chunk`s; `Chunk.bytes` documents the concrete bytes each one stands
for. The output sink is modelled by a failure schedule `Sink`: `sink i = true`
means the i-th sink operation (write or flush) returns an `io::Error`. -/

/-- One write to the output sink. -/
inductive Chunk where
  | clearSeq (n : Nat)
  | taskLine (id : Nat)
  | eventLine (task : Nat) (data : Nat)
deriving Repr, DecidableEq

/-- The concrete bytes a chunk stands for: `clearSeq n` is the frame-clear
control sequence `write!("\r\x1b[{}A\x1b[2K\x1b[J", n)` of
`FrameWriter::clear_frame` (carriage return, cursor-up-n, erase-current-line,
erase-to-end-of-screen; no newline); the line chunks are the modelled
renderer's newline-terminated lines. -/
def Chunk.bytes : Chunk → String
  | .clearSeq n => "\r\x1b[" ++ toString n ++ "A\x1b[2K\x1b[J"
  | .taskLine id => "task " ++ toString id ++ "\n"
  | .eventLine task data => "event " ++ toString task ++ " " ++ toString data ++ "\n"

/-- Newlines contained in a chunk (`buf.iter().filter(|&&b| b == b'\n').count()`
in `FrameWriter::write`): the clear sequence has none, each line has one. -/
def nlCount : Chunk → Nat
  | .clearSeq _ => 0
  | .taskLine _ => 1
  | .eventLine _ _ => 1

/-- Total newline count of a chunk list. -/
def nlSum (l : List Chunk) : Nat := (l.map nlCount).sum

/-- Is the chunk the frame-clear control sequence? -/
def isCtrl : Chunk → Bool
  | .clearSeq _ => true
  | _ => false

/-- Failure schedule of the output sink, by operation index. -/
def Sink : Type := Nat → Bool

deriving instance DecidableEq for Except

/-- Render-pass failures: a propagated `io::Error`, a Rust panic, or fuel
exhaustion (standing for the unbounded Rust recursion not terminating). -/
inductive RErr where
  | ioErr
  | fatal
  | fuelOut
deriving Repr, DecidableEq

/-- Sink-side state: operations performed so far and the chunks written. -/
structure WSt where
  ops : Nat
  out : List Chunk
deriving Repr, DecidableEq

/-- One `write` on the underlying sink. -/
def sinkWrite (sink : Sink) (c : Chunk) (st : WSt) : Except RErr WSt :=
  if sink st.ops then .error .ioErr
  else .ok { ops := st.ops + 1, out := st.out ++ [c] }

/-- One `flush` on the underlying sink. -/
def sinkFlush (sink : Sink) (st : WSt) : Except RErr WSt :=
  if sink st.ops then .error .ioErr
  else .ok { st with ops := st.ops + 1 }

/-- `FrameWriter::write`: count the newlines into the frame-line counter
(before attempting the sink write, as in the source), then write through. -/
def fwWrite (sink : Sink) (c : Chunk) (fl : Nat) (st : WSt) : Except RErr (Nat × WSt) :=
  match sinkWrite sink c st with
  | .error e => .error e
  | .ok st => .ok (fl + nlCount c, st)

/-- `FrameWriter::clear_frame`: if the previous pass drew `fl > 0` lines, emit
the clear sequence — NOTE the source calls `.unwrap()` on this write, so a
sink write error here is a Rust panic (`.fatal`), not a propagated error —
then flush (error propagated via `?`); either way the counter resets to 0. -/
def clearFrame (sink : Sink) (fl : Nat) (st : WSt) : Except RErr (Nat × WSt) :=
  if 0 < fl then
    match sinkWrite sink (.clearSeq fl) st with
    | .error _ => .error .fatal
    | .ok st =>
      match sinkFlush sink st with
      | .error e => .error e
      | .ok st => .ok (0, st)
  else .ok (0, st)

/-- `events.rev().take(3).rev()` — the most recent `n`, oldest of that set
first (default `render_task`). -/
def lastN (n : Nat) (l : List Nat) : List Nat := (l.reverse.take n).reverse

/-- The default `render_task`'s event loop: one `render_event_line` per datum
(the modelled implementor writes one `eventLine` chunk each). -/
def renderEvLines (sink : Sink) (tid : Nat) :
    List Nat → Nat → WSt → Except RErr (Nat × WSt)
  | [], fl, st => .ok (fl, st)
  | d :: rest, fl, st =>
    match fwWrite sink (.eventLine tid d) fl st with
    | .error e => .error e
    | .ok (fl, st) => renderEvLines sink tid rest fl st

/-- Run a per-id step (with early exit on error) over a list of ids, threading
the frame-line counter and the sink state — the shape of every `for` loop in
`render_task` and `flush_root`. -/
def foldSteps (f : Nat → Nat → WSt → Except RErr (Nat × WSt)) :
    List Nat → Nat → WSt → Except RErr (Nat × WSt)
  | [], fl, st => .ok (fl, st)
  | id :: rest, fl, st =>
    match f id fl st with
    | .error e => .error e
    | .ok (fl, st) => foldSteps f rest fl st

/-- The default `Renderer::render_task` (src/lib.rs): `render_task_line`, then
— unless the task is completed — the last 3 buffered events, then recurse into
the children in sibling order (the `foldSteps` is the
`for subtask in task.subtasks()` loop). The `TaskView` accessors unwrap, so a
missing id is a panic. Fuel models the unbounded Rust recursion. -/
def renderTaskM (sink : Sink) (tasks : List (Nat × Task)) :
    Nat → Nat → Nat → WSt → Except RErr (Nat × WSt)
  | 0, _, _, _ => .error .fuelOut
  | fuel + 1, id, fl, st =>
    match findTask tasks id with
    | none => .error .fatal
    | some t =>
      match fwWrite sink (.taskLine id) fl st with
      | .error e => .error e
      | .ok (fl, st) =>
        match (if t.completed then .ok (fl, st)
               else renderEvLines sink id (lastN 3 t.events) fl st :
               Except RErr (Nat × WSt)) with
        | .error e => .error e
        | .ok (fl, st) =>
          foldSteps (fun ch fl st => renderTaskM sink tasks fuel ch fl st) t.subtasks fl st

/-- The child recursion of `render_task`, as a named function (definitionally
the fold used inside `renderTaskM`). -/
def renderSubs (sink : Sink) (tasks : List (Nat × Task)) (fuel : Nat)
    (l : List Nat) (fl : Nat) (st : WSt) : Except RErr (Nat × WSt) :=
  foldSteps (fun ch fl st => renderTaskM sink tasks fuel ch fl st) l fl st

/-- The root-event loop of `flush_root`: `render_event_line` for each buffered
root event, in order. -/
def flushEvents (sink : Sink) :
    List Nat → Nat → WSt → Except RErr (Nat × WSt)
  | [], fl, st => .ok (fl, st)
  | d :: rest, fl, st =>
    match fwWrite sink (.eventLine 0 d) fl st with
    | .error e => .error e
    | .ok (fl, st) => flushEvents sink rest fl st

/-- The root-child loop of `flush_root`: look each child up (unwrap — panic on
a dangler), render completed/cancelled ones fully and queue them for removal,
queue the rest for the active pass. -/
def flushChildren (sink : Sink) (tasks : List (Nat × Task)) (fuel : Nat) :
    List Nat → Nat → WSt → List Nat → List Nat →
    Except RErr (Nat × WSt × List Nat × List Nat)
  | [], fl, st, act, comp => .ok (fl, st, act, comp)
  | id :: rest, fl, st, act, comp =>
    match findTask tasks id with
    | none => .error .fatal
    | some t =>
      if t.completed || t.cancelled then
        match renderTaskM sink tasks fuel id fl st with
        | .error e => .error e
        | .ok (fl, st) => flushChildren sink tasks fuel rest fl st act (comp ++ [id])
      else flushChildren sink tasks fuel rest fl st (act ++ [id]) comp

/-- `TaskRenderer::flush_root` (src/writer.rs): render and clear the root's
buffered events, render and collect the completed/cancelled root children,
remove the collected ones, return the active queue. `self.root()` unwraps. -/
def flushRoot (sink : Sink) (s : TaskStore) (fl : Nat) (st : WSt) :
    Except RErr (TaskStore × List Nat × Nat × WSt) :=
  match findTask s.tasks 0 with
  | none => .error .fatal
  | some rt =>
    match flushEvents sink rt.events fl st with
    | .error e => .error e
    | .ok (fl, st) =>
      let tasks2 := modifyTask s.tasks 0 (fun t => { t with events := [] })
      match findTask tasks2 0 with
      | none => .error .fatal
      | some rt2 =>
        match flushChildren sink tasks2 (tasks2.length + 1) rt2.subtasks fl st [] [] with
        | .error e => .error e
        | .ok (fl, st, act, comp) =>
          .ok ({ s with tasks := removeAll tasks2 comp }, act, fl, st)

/-- The active pass of `render`: pop each queued id, look it up (unwrap —
panic on a dangler), and if its payload is still present render it fully. -/
def activeLoop (sink : Sink) (tasks : List (Nat × Task)) (fuel : Nat) :
    List Nat → Nat → WSt → Except RErr (Nat × WSt)
  | [], fl, st => .ok (fl, st)
  | id :: rest, fl, st =>
    match findTask tasks id with
    | none => .error .fatal
    | some t =>
      if t.data.isSome then
        match renderTaskM sink tasks fuel id fl st with
        | .error e => .error e
        | .ok (fl, st) => activeLoop sink tasks fuel rest fl st
      else activeLoop sink tasks fuel rest fl st

/-- `TaskRenderer` (src/writer.rs): the store plus the erasable-line count
recorded by the previous render call. -/
structure TaskRenderer where
  tasks : TaskStore
  frame_lines : Nat
deriving Repr, DecidableEq

/-- `TaskRenderer::new` with the modelled renderer. -/
def TaskRenderer.new : TaskRenderer := { tasks := TaskStore.new, frame_lines := 0 }

/-- `TaskRenderer::update`. -/
def TaskRenderer.update (tr : TaskRenderer) (a : Action) : Option TaskRenderer :=
  (tr.tasks.apply a).map (fun s => { tr with tasks := s })

/-- `TaskRenderer::render` (src/writer.rs): frame-start hook (no-op here),
clear the previous active frame using the recorded count, flush pass, active
pass on a fresh `FrameWriter` (counter 0), record the active-pass line count,
final flush, frame-end hook. On an error the Rust method returns early, so
`frame_lines` keeps its pre-call value for every error before the record step
(the final flush comes after it). -/
def TaskRenderer.render (sink : Sink) (tr : TaskRenderer) (st : WSt) :
    Except RErr (TaskRenderer × WSt) :=
  match clearFrame sink tr.frame_lines st with
  | .error e => .error e
  | .ok (fl, st) =>
    match flushRoot sink tr.tasks fl st with
    | .error e => .error e
    | .ok (s2, act, _, st) =>
      match activeLoop sink s2.tasks (s2.tasks.length + 1) act 0 st with
      | .error e => .error e
      | .ok (fl2, st) =>
        match sinkFlush sink st with
        | .error e => .error e
        | .ok st => .ok ({ tasks := s2, frame_lines := fl2 }, st)

/-- One render call against a fresh sink transcript: the result renderer and
the full ordered list of chunks written. -/
def renderRun (sink : Sink) (tr : TaskRenderer) : Except RErr (TaskRenderer × List Chunk) :=
  match tr.render sink { ops := 0, out := [] } with
  | .error e => .error e
  | .ok (tr', st) => .ok (tr', st.out)

/-- The chunks `clear_frame` emits for a previous line count `n`. -/
def clearPart (n : Nat) : List Chunk :=
  if 0 < n then [Chunk.clearSeq n] else []

/-- The sink that never fails. -/
def pureSink : Sink := fun _ => false

/-- `d` is `a` or reachable from `a` through child links, all present. -/
inductive Desc (tasks : List (Nat × Task)) : Nat → Nat → Prop where
  | refl (a : Nat) (t : Task) : findTask tasks a = some t → Desc tasks a a
  | step (a ch d : Nat) (t : Task) : findTask tasks a = some t → ch ∈ t.subtasks →
      Desc tasks ch d → Desc tasks a d

/-- The map's keys are duplicate-free (structural invariant of `IndexMap`,
maintained by every operation of the model). -/
def KeysNodup (l : List (Nat × Task)) : Prop := (l.map Prod.fst).Nodup

/-- Every record's child set is duplicate-free (structural invariant of
`IndexSet`). -/
def SubNodup (l : List (Nat × Task)) : Prop :=
  ∀ k t, findTask l k = some t → t.subtasks.Nodup

/-- Every child identity that appears in some record's child set is a key of
the map (no dangling child links). -/
def SubClosed (l : List (Nat × Task)) : Prop :=
  ∀ k t c, findTask l k = some t → c ∈ t.subtasks → findTask l c ≠ none

/-! ### Store invariants preserved by `apply`

These are the structural guarantees the Rust types enforce (`IndexMap` /
`IndexSet` well-formedness, the virtual root installed by the constructor):
the keys and every child set are duplicate-free, child links never dangle and
never name ROOT, and ROOT is present at depth 0 with no parent. `TaskStart`
re-using an already-present id — in particular id 0 — is undefined behaviour
per the spec, so the `TaskStart` ids are only required to be nonzero. -/

structure Inv (l : List (Nat × Task)) : Prop where
  rootp : ∃ rt, findTask l 0 = some rt ∧ rt.depth = 0 ∧ rt.parent = none
  zsub : ∀ k t, findTask l k = some t → 0 ∉ t.subtasks
  closed : SubClosed l
  knd : KeysNodup l
  snd : SubNodup l

/-- No `TaskStart` action in the list carries the reserved ROOT id. -/
def NoZeroStart (acts : List Action) : Prop :=
  ∀ id p d, Action.taskStart id p d ∈ acts → id ≠ 0

/-- The virtual root's status flags are clear. -/
def RootFlags (l : List (Nat × Task)) : Prop :=
  ∀ rt, findTask l 0 = some rt → rt.completed = false ∧ rt.cancelled = false

/-- No `TaskStart` or `TaskEnd` action carries the reserved ROOT id. -/
def NoZeroId (acts : List Action) : Prop :=
  (∀ id p d, Action.taskStart id p d ∈ acts → id ≠ 0) ∧
  (∀ id, Action.taskEnd id ∈ acts → id ≠ 0)

/-- Every record's event buffer holds at most `m` events. -/
def EvBound (m : Nat) (l : List (Nat × Task)) : Prop :=
  ∀ k t, findTask l k = some t → t.events.length ≤ m

/-- Is the id's task completed or cancelled (the `flush_root` predicate)? -/
def isDone (tasks : List (Nat × Task)) (id : Nat) : Bool :=
  match findTask tasks id with
  | some t => t.completed || t.cancelled
  | none => false

/-- Relation between a store and the result of any sequence of `remove`
calls on it: records only survive with their non-`subtasks` fields intact and
their child sets shrunk (`keep`); a surviving record's original child link
either survives or its target is gone (`link`); when a record is gone, the
targets of all its original child links are gone (`kill`) and it has been
detached from its recorded parent's surviving child set (`detach`). -/
structure RemOk (s0 s1 : List (Nat × Task)) : Prop where
  keep : ∀ x t1, findTask s1 x = some t1 → ∃ t0, findTask s0 x = some t0 ∧
    t1.depth = t0.depth ∧ t1.parent = t0.parent ∧ t1.completed = t0.completed ∧
    t1.cancelled = t0.cancelled ∧ t1.data = t0.data ∧ t1.events = t0.events ∧
    (∀ y, y ∈ t1.subtasks → y ∈ t0.subtasks)
  link : ∀ x t0 t1 y, findTask s0 x = some t0 → findTask s1 x = some t1 →
    y ∈ t0.subtasks → y ∈ t1.subtasks ∨ findTask s1 y = none
  kill : ∀ x t0, findTask s0 x = some t0 → findTask s1 x = none →
    ∀ y ∈ t0.subtasks, findTask s1 y = none
  detach : ∀ x t0, findTask s0 x = some t0 → findTask s1 x = none →
    ∀ tp, findTask s1 (t0.parent.getD 0) = some tp → x ∉ tp.subtasks

/-! ### Association-list lemmas -/

theorem findTask_modifyTask_self (l : List (Nat × Task)) (id : Nat) (f : Task → Task) :
    findTask (modifyTask l id f) id = (findTask l id).map f := by
  induction l with
  | nil => simp [findTask, modifyTask]
  | cons kt rest ih =>
    obtain ⟨k, t⟩ := kt
    by_cases h : k = id <;> simp [findTask, modifyTask, h, ih]

theorem findTask_modifyTask_ne (l : List (Nat × Task)) (id x : Nat) (f : Task → Task)
    (h : x ≠ id) : findTask (modifyTask l id f) x = findTask l x := by
  induction l with
  | nil => simp [findTask, modifyTask]
  | cons kt rest ih =>
    obtain ⟨k, t⟩ := kt
    by_cases hk : k = id
    · subst hk
      simp [findTask, modifyTask, (Ne.symm h)]
    · by_cases hx : k = x <;> simp [findTask, modifyTask, hk, hx, ih, h]

theorem findTask_insertTask_self (l : List (Nat × Task)) (id : Nat) (t : Task) :
    findTask (insertTask l id t) id = some t := by
  induction l with
  | nil => simp [findTask, insertTask]
  | cons kt rest ih =>
    obtain ⟨k, u⟩ := kt
    by_cases h : k = id <;> simp [findTask, insertTask, h, ih]

theorem findTask_insertTask_ne (l : List (Nat × Task)) (id x : Nat) (t : Task)
    (h : x ≠ id) : findTask (insertTask l id t) x = findTask l x := by
  induction l with
  | nil => simp [findTask, insertTask, Ne.symm h]
  | cons kt rest ih =>
    obtain ⟨k, u⟩ := kt
    by_cases hk : k = id
    · subst hk
      simp [findTask, insertTask, Ne.symm h]
    · by_cases hx : k = x <;> simp [findTask, insertTask, hk, hx, ih, h]

theorem findTask_eraseTask_ne (l : List (Nat × Task)) (id x : Nat)
    (h : x ≠ id) : findTask (eraseTask l id) x = findTask l x := by
  induction l with
  | nil => simp [eraseTask]
  | cons kt rest ih =>
    obtain ⟨k, u⟩ := kt
    by_cases hk : k = id
    · subst hk
      simp [findTask, eraseTask, Ne.symm h]
    · by_cases hx : k = x <;> simp [findTask, eraseTask, hk, hx, ih, h]

theorem findTask_none_iff (l : List (Nat × Task)) (x : Nat) :
    findTask l x = none ↔ x ∉ l.map Prod.fst := by
  induction l with
  | nil => simp [findTask]
  | cons kt rest ih =>
    obtain ⟨k, u⟩ := kt
    by_cases h : k = x
    · subst h
      simp [findTask]
    · rw [findTask, if_neg h, ih]
      simp only [List.map_cons, List.mem_cons, not_or]
      constructor
      · intro hx
        exact ⟨fun hh => h hh.symm, hx⟩
      · exact And.right

theorem findTask_eraseTask_self (l : List (Nat × Task)) (id : Nat)
    (h : KeysNodup l) : findTask (eraseTask l id) id = none := by
  induction l with
  | nil => simp [eraseTask, findTask]
  | cons kt rest ih =>
    obtain ⟨k, u⟩ := kt
    simp only [KeysNodup, List.map_cons, List.nodup_cons] at h
    by_cases hk : k = id
    · subst hk
      simp only [eraseTask, if_pos rfl]
      exact (findTask_none_iff rest k).2 h.1
    · simp only [eraseTask, if_neg hk, findTask, if_neg hk]
      exact ih h.2

theorem keys_modifyTask (l : List (Nat × Task)) (id : Nat) (f : Task → Task) :
    (modifyTask l id f).map Prod.fst = l.map Prod.fst := by
  induction l with
  | nil => simp [modifyTask]
  | cons kt rest ih =>
    obtain ⟨k, u⟩ := kt
    by_cases h : k = id <;> simp [modifyTask, h, ih]

theorem keys_eraseTask_sublist (l : List (Nat × Task)) (id : Nat) :
    ((eraseTask l id).map Prod.fst).Sublist (l.map Prod.fst) := by
  induction l with
  | nil => simp [eraseTask]
  | cons kt rest ih =>
    obtain ⟨k, u⟩ := kt
    by_cases h : k = id
    · simp only [eraseTask, if_pos h, List.map_cons]
      exact (List.sublist_cons_self _ _)
    · simp only [eraseTask, if_neg h, List.map_cons]
      exact ih.cons₂ k

theorem length_modifyTask (l : List (Nat × Task)) (id : Nat) (f : Task → Task) :
    (modifyTask l id f).length = l.length := by
  induction l with
  | nil => rfl
  | cons kt rest ih =>
    obtain ⟨k, u⟩ := kt
    by_cases h : k = id <;> simp [modifyTask, h, ih]

theorem length_eraseTask_le (l : List (Nat × Task)) (id : Nat) :
    (eraseTask l id).length ≤ l.length := by
  induction l with
  | nil => simp [eraseTask]
  | cons kt rest ih =>
    obtain ⟨k, u⟩ := kt
    by_cases h : k = id
    · simp only [eraseTask, if_pos h, List.length_cons]
      omega
    · simp only [eraseTask, if_neg h, List.length_cons]
      omega

theorem length_eraseTask_lt (l : List (Nat × Task)) (id : Nat) (t : Task)
    (h : findTask l id = some t) : (eraseTask l id).length < l.length := by
  induction l with
  | nil => simp [findTask] at h
  | cons kt rest ih =>
    obtain ⟨k, u⟩ := kt
    by_cases hk : k = id
    · simp only [eraseTask, if_pos hk, List.length_cons]
      omega
    · simp only [findTask, if_neg hk] at h
      simp only [eraseTask, if_neg hk, List.length_cons]
      exact Nat.succ_lt_succ (ih h)

theorem keys_insertTask (l : List (Nat × Task)) (id : Nat) (t : Task) :
    (insertTask l id t).map Prod.fst =
      if id ∈ l.map Prod.fst then l.map Prod.fst else l.map Prod.fst ++ [id] := by
  induction l with
  | nil => simp [insertTask]
  | cons kt rest ih =>
    obtain ⟨k, u⟩ := kt
    by_cases h : k = id
    · subst h
      simp [insertTask]
    · have hik : ¬ id = k := fun hh => h hh.symm
      simp only [insertTask, if_neg h, List.map_cons, ih, List.mem_cons]
      by_cases hm : id ∈ rest.map Prod.fst
      · rw [if_pos hm, if_pos (Or.inr hm)]
      · rw [if_neg hm, if_neg ?_]
        · simp
        · rintro (hh | hh)
          · exact hik hh
          · exact hm hh

theorem mem_insertId (l : List Nat) (id x : Nat) :
    x ∈ insertId l id ↔ x ∈ l ∨ x = id := by
  unfold insertId
  by_cases h : id ∈ l
  · simp only [if_pos h]
    constructor
    · exact Or.inl
    · rintro (hx | rfl)
      · exact hx
      · exact h
  · simp [if_neg h]

theorem insertId_nodup (l : List Nat) (id : Nat) (h : l.Nodup) :
    (insertId l id).Nodup := by
  unfold insertId
  by_cases hm : id ∈ l
  · simpa [if_pos hm]
  · simp only [if_neg hm]
    simp only [List.nodup_append, List.nodup_cons, List.not_mem_nil, not_false_iff,
      List.nodup_nil, and_true, true_and]
    refine ⟨h, ?_⟩
    intro a ha hb
    simp only [List.mem_singleton] at hb
    subst hb
    exact hm ha

theorem count_insertId_self (l : List Nat) (id : Nat) (h : id ∉ l) :
    (insertId l id).count id = 1 := by
  unfold insertId
  rw [if_neg h]
  rw [List.count_append]
  rw [List.count_eq_zero.2 h]
  simp

/-! ### Retention (`trimEvents`) lemmas -/

theorem trimEvents_length_le (max : Nat) (l : List Nat) :
    (trimEvents max l).length ≤ max := by
  induction l with
  | nil => simp [trimEvents]
  | cons d rest ih =>
    rw [trimEvents]
    split
    · exact ih
    · simp only [List.length_cons]
      omega

theorem trimEvents_eq_self (max : Nat) (l : List Nat) (h : l.length ≤ max) :
    trimEvents max l = l := by
  cases l with
  | nil => rfl
  | cons d rest =>
    rw [trimEvents, if_neg ?_]
    simp only [List.length_cons] at h
    omega

/-- A record update that can change only flags and events (not `subtasks`,
`depth` or `parent`) preserves `Inv`. -/
theorem inv_modifyTask (l : List (Nat × Task)) (id : Nat) (f : Task → Task)
    (hf : ∀ t, (f t).subtasks = t.subtasks ∧ (f t).depth = t.depth ∧ (f t).parent = t.parent)
    (h : Inv l) : Inv (modifyTask l id f) := by
  refine ⟨?_, ?_, ?_, ?_, ?_⟩
  · obtain ⟨rt, hrt, hd, hp⟩ := h.rootp
    by_cases h0 : (0 : Nat) = id
    · subst h0
      refine ⟨f rt, ?_, ?_, ?_⟩
      · rw [findTask_modifyTask_self, hrt]
        rfl
      · rw [(hf rt).2.1, hd]
      · rw [(hf rt).2.2, hp]
    · exact ⟨rt, by rw [findTask_modifyTask_ne _ _ _ _ h0]; exact hrt, hd, hp⟩
  · intro k t hk
    by_cases hki : k = id
    · subst hki
      rw [findTask_modifyTask_self] at hk
      cases hu : findTask l k with
      | none => rw [hu] at hk; cases hk
      | some u =>
        rw [hu] at hk
        have : t = f u := by cases hk; rfl
        rw [this, (hf u).1]
        exact h.zsub k u hu
    · rw [findTask_modifyTask_ne _ _ _ _ hki] at hk
      exact h.zsub k t hk
  · intro k t c hk hc
    have hmem : findTask l c ≠ none := by
      by_cases hki : k = id
      · subst hki
        rw [findTask_modifyTask_self] at hk
        cases hu : findTask l k with
        | none => rw [hu] at hk; cases hk
        | some u =>
          rw [hu] at hk
          have : t = f u := by cases hk; rfl
          rw [this, (hf u).1] at hc
          exact h.closed k u c hu hc
      · rw [findTask_modifyTask_ne _ _ _ _ hki] at hk
        exact h.closed k t c hk hc
    intro hnone
    apply hmem
    rw [findTask_none_iff] at hnone ⊢
    rwa [keys_modifyTask] at hnone
  · unfold KeysNodup
    rw [keys_modifyTask]
    exact h.knd
  · intro k t hk
    by_cases hki : k = id
    · subst hki
      rw [findTask_modifyTask_self] at hk
      cases hu : findTask l k with
      | none => rw [hu] at hk; cases hk
      | some u =>
        rw [hu] at hk
        have : t = f u := by cases hk; rfl
        rw [this, (hf u).1]
        exact h.snd k u hu
    · rw [findTask_modifyTask_ne _ _ _ _ hki] at hk
      exact h.snd k t hk

theorem inv_cancelLoop (fuel : Nat) (l : List (Nat × Task)) (q : List Nat)
    (l' : List (Nat × Task)) (h : Inv l) (hq : cancelLoop fuel l q = some l') :
    Inv l' := by
  induction fuel generalizing l q with
  | zero =>
    cases q with
    | nil =>
      cases hq
      exact h
    | cons a rest => cases hq
  | succ fuel ih =>
    cases q with
    | nil =>
      cases hq
      exact h
    | cons a rest =>
      simp only [cancelLoop] at hq
      split at hq
      · cases hq
      · exact ih _ _
          (inv_modifyTask l a (fun u => { u with cancelled := true })
            (fun t => ⟨rfl, rfl, rfl⟩) h) hq

theorem inv_apply (s s' : TaskStore) (a : Action) (h : Inv s.tasks)
    (hz : ∀ id p d, a = .taskStart id p d → id ≠ 0)
    (ha : s.apply a = some s') : Inv s'.tasks := by
  cases a with
  | event parent data =>
    simp only [TaskStore.apply] at ha
    split at ha
    · cases ha
      exact inv_modifyTask _ _ _ (fun t => ⟨rfl, rfl, rfl⟩) h
    · cases ha
      exact h
  | taskEnd id =>
    simp only [TaskStore.apply] at ha
    split at ha
    · cases ha
      exact inv_modifyTask _ _ _ (fun t => ⟨rfl, rfl, rfl⟩) h
    · cases ha
      exact h
  | cancelAll =>
    simp only [TaskStore.apply] at ha
    split at ha
    · cases ha
    · split at ha
      · cases ha
      · rename_i tasks hc
        cases ha
        exact inv_cancelLoop _ _ _ _ h hc
  | taskStart id parent data =>
    have hid : id ≠ 0 := hz id parent data rfl
    simp only [TaskStore.apply] at ha
    split at ha
    · cases ha
    · rename_i pt hf
      split at ha
      · cases ha
      · rename_i pt2 hf2
        cases ha
        set parentId := resolveParent s.tasks parent with hpid
        -- the new map: insert the new record, then append id to the parent's set
        set nt := Task.new (pt.depth + 1) (some parentId) (some data) with hnt
        set li := insertTask s.tasks id nt with hli
        set attach := fun p : Task => { p with subtasks := insertId p.subtasks id } with hattach
        -- lookups in the final map
        have hsub : ∀ k t, findTask (modifyTask li parentId attach) k = some t →
            (t.subtasks = [] ∨ t.subtasks = insertId pt2.subtasks id ∨
              ∃ u, findTask s.tasks k = some u ∧ t.subtasks = u.subtasks ∨
                findTask s.tasks k = some u ∧ t.subtasks = insertId u.subtasks id) := by
          intro k t hk
          by_cases hkp : k = parentId
          · subst hkp
            rw [findTask_modifyTask_self, hf2] at hk
            cases hk
            exact Or.inr (Or.inl rfl)
          · rw [findTask_modifyTask_ne _ _ _ _ hkp] at hk
            by_cases hki : k = id
            · subst hki
              rw [findTask_insertTask_self] at hk
              cases hk
              exact Or.inl rfl
            · rw [findTask_insertTask_ne _ _ _ _ hki] at hk
              exact Or.inr (Or.inr ⟨t, Or.inl ⟨hk, rfl⟩⟩)
        have hpt2sub : pt2.subtasks = [] ∨ pt2.subtasks = pt.subtasks := by
          by_cases hpi : parentId = id
          · rw [hpi, findTask_insertTask_self] at hf2
            have hh : pt2 = nt := (Option.some.inj hf2).symm
            rw [hh]
            exact Or.inl rfl
          · rw [findTask_insertTask_ne _ _ _ _ hpi, hf] at hf2
            have hh : pt2 = pt := (Option.some.inj hf2).symm
            rw [hh]
            exact Or.inr rfl
        have hkeyssup : ∀ c, c ∈ s.tasks.map Prod.fst ∨ c = id → c ∈ li.map Prod.fst := by
          intro c hc
          rw [hli, keys_insertTask]
          by_cases hm : id ∈ s.tasks.map Prod.fst
          · rw [if_pos hm]
            rcases hc with hc | rfl
            · exact hc
            · exact hm
          · rw [if_neg hm]
            rcases hc with hc | rfl
            · exact List.mem_append_left _ hc
            · exact List.mem_append_right _ (List.mem_singleton.2 rfl)
        refine ⟨?_, ?_, ?_, ?_, ?_⟩
        · -- root record: untouched apart from possibly its subtasks
          obtain ⟨rt, hrt, hd, hp⟩ := h.rootp
          have h0id : (0 : Nat) ≠ id := fun hh => hid hh.symm
          have hroot_li : findTask li 0 = some rt := by
            rw [hli, findTask_insertTask_ne _ _ _ _ h0id]
            exact hrt
          by_cases h0p : (0 : Nat) = parentId
          · refine ⟨attach rt, ?_, hd, hp⟩
            rw [← h0p] at hf2 ⊢
            rw [findTask_modifyTask_self]
            rw [hroot_li]
            rfl
          · refine ⟨rt, ?_, hd, hp⟩
            rw [findTask_modifyTask_ne _ _ _ _ h0p]
            exact hroot_li
        · -- no child set ever contains 0
          intro k t hk
          rcases hsub k t hk with he | he | ⟨u, ⟨hu, he⟩ | ⟨hu, he⟩⟩
          · rw [he]
            simp
          · rw [he, mem_insertId]
            rcases hpt2sub with h2 | h2
            · rw [h2]
              simp only [List.not_mem_nil, false_or]
              exact fun hh => hid hh.symm
            · rw [h2]
              rintro (hh | hh)
              · exact h.zsub _ _ hf hh
              · exact hid hh.symm
          · rw [he]
            exact h.zsub k u hu
          · rw [he, mem_insertId]
            rintro (hh | hh)
            · exact h.zsub k u hu hh
            · exact hid hh.symm
        · -- no dangling child links
          intro k t c hk hc
          dsimp only at hk ⊢
          rw [ne_eq, findTask_none_iff, keys_modifyTask]
          intro hcn
          apply hcn
          have base : ∀ u : Task, findTask s.tasks k = some u → c ∈ u.subtasks →
              c ∈ li.map Prod.fst := by
            intro u hu hcu
            have := h.closed k u c hu hcu
            rw [ne_eq, findTask_none_iff, not_not] at this
            exact hkeyssup c (Or.inl this)
          rcases hsub k t hk with he | he | ⟨u, ⟨hu, he⟩ | ⟨hu, he⟩⟩
          · rw [he] at hc
            cases hc
          · rw [he, mem_insertId] at hc
            rcases hc with hc | rfl
            · rcases hpt2sub with h2 | h2
              · rw [h2] at hc
                cases hc
              · rw [h2] at hc
                have := h.closed parentId pt c hf hc
                rw [ne_eq, findTask_none_iff, not_not] at this
                exact hkeyssup c (Or.inl this)
            · exact hkeyssup c (Or.inr rfl)
          · rw [he] at hc
            exact base u hu hc
          · rw [he, mem_insertId] at hc
            rcases hc with hc | rfl
            · exact base u hu hc
            · exact hkeyssup c (Or.inr rfl)
        · -- keys stay duplicate-free
          unfold KeysNodup
          rw [keys_modifyTask, hli, keys_insertTask]
          by_cases hm : id ∈ s.tasks.map Prod.fst
          · rw [if_pos hm]
            exact h.knd
          · rw [if_neg hm]
            simp only [List.nodup_append, List.nodup_cons, List.not_mem_nil, not_false_iff,
              List.nodup_nil, and_true, true_and]
            refine ⟨h.knd, ?_⟩
            intro a ha hb
            simp only [List.mem_singleton] at hb
            subst hb
            exact hm ha
        · -- child sets stay duplicate-free
          intro k t hk
          rcases hsub k t hk with he | he | ⟨u, ⟨hu, he⟩ | ⟨hu, he⟩⟩
          · rw [he]
            exact List.nodup_nil
          · rw [he]
            apply insertId_nodup
            rcases hpt2sub with h2 | h2
            · rw [h2]
              exact List.nodup_nil
            · rw [h2]
              exact h.snd _ _ hf
          · rw [he]
            exact h.snd k u hu
          · rw [he]
            exact insertId_nodup _ _ (h.snd k u hu)


theorem findTask_singleton (r : Task) (k : Nat) (t : Task)
    (h : findTask [(0, r)] k = some t) : k = 0 ∧ t = r := by
  by_cases hk : (0 : Nat) = k
  · subst hk
    simp only [findTask, if_pos rfl] at h
    exact ⟨rfl, (Option.some.inj h).symm⟩
  · simp only [findTask, if_neg hk] at h
    cases h

theorem inv_new : Inv TaskStore.new.tasks := by
  refine ⟨⟨Task.new 0 none none, rfl, rfl, rfl⟩, ?_, ?_, ?_, ?_⟩
  · intro k t hk
    obtain ⟨-, rfl⟩ := findTask_singleton _ _ _ hk
    simp [Task.new]
  · intro k t c hk hc
    obtain ⟨-, rfl⟩ := findTask_singleton _ _ _ hk
    simp [Task.new] at hc
  · simp [KeysNodup, TaskStore.new, TaskStore.withMaxEvents]
  · intro k t hk
    obtain ⟨-, rfl⟩ := findTask_singleton _ _ _ hk
    simp [Task.new]

theorem inv_applyList (acts : List Action) (s s' : TaskStore) (h : Inv s.tasks)
    (hz : NoZeroStart acts) (ha : applyList s acts = some s') : Inv s'.tasks := by
  induction acts generalizing s with
  | nil =>
    cases ha
    exact h
  | cons a rest ih =>
    simp only [applyList] at ha
    split at ha
    · cases ha
    · rename_i s1 h1
      refine ih s1 ?_ ?_ ha
      · refine inv_apply s s1 a h ?_ h1
        intro id p d he
        exact hz id p d (by rw [← he]; exact List.mem_cons_self a rest)
      · intro id p d hm
        exact hz id p d (List.mem_cons_of_mem a hm)

/-! ### Root flags (for the root-is-never-completed/cancelled claim) -/

/-- `CancelAll`'s queue loop never touches the root record as long as the
queue never names it: the queue is seeded from child sets and extended by
child sets, and no child set contains 0 (`Inv.zsub`). -/
theorem cancelLoop_root (fuel : Nat) (l : List (Nat × Task)) (q : List Nat)
    (l' : List (Nat × Task)) (h : Inv l) (hq0 : ∀ x ∈ q, x ≠ 0)
    (hq : cancelLoop fuel l q = some l') : findTask l' 0 = findTask l 0 := by
  induction fuel generalizing l q with
  | zero =>
    cases q with
    | nil => cases hq; rfl
    | cons a rest => cases hq
  | succ fuel ih =>
    cases q with
    | nil => cases hq; rfl
    | cons a rest =>
      simp only [cancelLoop] at hq
      split at hq
      · cases hq
      · rename_i t ht
        have ha0 : a ≠ 0 := hq0 a (List.mem_cons_self a rest)
        have hstep := ih (modifyTask l a (fun u => { u with cancelled := true }))
          (rest ++ t.subtasks)
          (inv_modifyTask l a _ (fun t => ⟨rfl, rfl, rfl⟩) h) ?_ hq
        · rw [hstep, findTask_modifyTask_ne _ _ _ _ (fun hh => ha0 hh.symm)]
        · intro x hx
          rcases List.mem_append.1 hx with hx | hx
          · exact hq0 x (List.mem_cons_of_mem a hx)
          · intro hx0
            subst hx0
            exact h.zsub a t ht hx

theorem rootFlags_apply (s s' : TaskStore) (a : Action) (hinv : Inv s.tasks)
    (h : RootFlags s.tasks)
    (hzs : ∀ id p d, a = .taskStart id p d → id ≠ 0)
    (hze : ∀ id, a = .taskEnd id → id ≠ 0)
    (ha : s.apply a = some s') : RootFlags s'.tasks := by
  cases a with
  | event parent data =>
    simp only [TaskStore.apply] at ha
    split at ha
    · cases ha
      intro rt hrt
      dsimp only at hrt
      by_cases hk : (0 : Nat) = parent.getD 0
      · rw [← hk, findTask_modifyTask_self] at hrt
        cases hr : findTask s.tasks 0 with
        | none => rw [hr] at hrt; cases hrt
        | some r =>
          rw [hr] at hrt
          have : rt = { r with events := trimEvents s.max_events (r.events ++ [data]) } :=
            (Option.some.inj hrt).symm
          rw [this]
          exact h r hr
      · rw [findTask_modifyTask_ne _ _ _ _ hk] at hrt
        exact h rt hrt
    · cases ha
      exact h
  | taskEnd id =>
    have hid : id ≠ 0 := hze id rfl
    simp only [TaskStore.apply] at ha
    split at ha
    · cases ha
      intro rt hrt
      dsimp only at hrt
      rw [findTask_modifyTask_ne _ _ _ _ (fun hh => hid hh.symm)] at hrt
      exact h rt hrt
    · cases ha
      exact h
  | cancelAll =>
    simp only [TaskStore.apply] at ha
    split at ha
    · cases ha
    · rename_i rt0 hf
      split at ha
      · cases ha
      · rename_i tasks hc
        cases ha
        intro rt hrt
        dsimp only at hrt
        have hq0 : ∀ x ∈ rt0.subtasks, x ≠ 0 := by
          intro x hx hx0
          subst hx0
          exact hinv.zsub 0 rt0 hf hx
        rw [cancelLoop_root _ _ _ _ hinv hq0 hc] at hrt
        exact h rt hrt
  | taskStart id parent data =>
    have hid : id ≠ 0 := hzs id parent data rfl
    simp only [TaskStore.apply] at ha
    split at ha
    · cases ha
    · rename_i pt hf
      split at ha
      · cases ha
      · rename_i pt2 hf2
        cases ha
        intro rt hrt
        dsimp only at hrt
        by_cases hk : (0 : Nat) = resolveParent s.tasks parent
        · rw [← hk, findTask_modifyTask_self] at hrt
          rw [findTask_insertTask_ne _ _ _ _ (fun hh => hid hh.symm)] at hrt
          cases hr : findTask s.tasks 0 with
          | none => rw [hr] at hrt; cases hrt
          | some r =>
            rw [hr] at hrt
            have : rt = { r with subtasks := insertId r.subtasks id } :=
              (Option.some.inj hrt).symm
            rw [this]
            exact h r hr
        · rw [findTask_modifyTask_ne _ _ _ _ hk] at hrt
          rw [findTask_insertTask_ne _ _ _ _ (fun hh => hid hh.symm)] at hrt
          exact h rt hrt

theorem rootFlags_applyList (acts : List Action) (s s' : TaskStore)
    (hinv : Inv s.tasks) (h : RootFlags s.tasks) (hz : NoZeroId acts)
    (ha : applyList s acts = some s') : RootFlags s'.tasks := by
  induction acts generalizing s with
  | nil =>
    cases ha
    exact h
  | cons a rest ih =>
    simp only [applyList] at ha
    split at ha
    · cases ha
    · rename_i s1 h1
      have hzs : ∀ id p d, a = .taskStart id p d → id ≠ 0 := by
        intro id p d he
        exact hz.1 id p d (by rw [← he]; exact List.mem_cons_self a rest)
      refine ih s1 ?_ ?_ ?_ ha
      · exact inv_apply s s1 a hinv hzs h1
      · refine rootFlags_apply s s1 a hinv h hzs ?_ h1
        intro id he
        exact hz.2 id (by rw [← he]; exact List.mem_cons_self a rest)
      · exact ⟨fun id p d hm => hz.1 id p d (List.mem_cons_of_mem a hm),
          fun id hm => hz.2 id (List.mem_cons_of_mem a hm)⟩

/-! ### Event-buffer bounds (retention) -/

/-- `cancelLoop` changes nothing but `cancelled` flags: every record of the
result comes from a record of the input with all other fields equal. -/
theorem cancelLoop_records (fuel : Nat) (l : List (Nat × Task)) (q : List Nat)
    (l' : List (Nat × Task)) (hq : cancelLoop fuel l q = some l') :
    ∀ k t', findTask l' k = some t' → ∃ t, findTask l k = some t ∧
      t'.depth = t.depth ∧ t'.parent = t.parent ∧ t'.data = t.data ∧
      t'.events = t.events ∧ t'.subtasks = t.subtasks ∧ t'.completed = t.completed := by
  induction fuel generalizing l q with
  | zero =>
    cases q with
    | nil =>
      cases hq
      intro k t' hk
      exact ⟨t', hk, rfl, rfl, rfl, rfl, rfl, rfl⟩
    | cons a rest => cases hq
  | succ fuel ih =>
    cases q with
    | nil =>
      cases hq
      intro k t' hk
      exact ⟨t', hk, rfl, rfl, rfl, rfl, rfl, rfl⟩
    | cons a rest =>
      simp only [cancelLoop] at hq
      split at hq
      · cases hq
      · rename_i t ht
        intro k t' hk
        obtain ⟨t1, ht1, h1, h2, h3, h4, h5, h6⟩ := ih _ _ hq k t' hk
        by_cases hka : k = a
        · subst hka
          rw [findTask_modifyTask_self, ht] at ht1
          have : t1 = { t with cancelled := true } := (Option.some.inj ht1).symm
          subst this
          exact ⟨t, ht, h1, h2, h3, h4, h5, h6⟩
        · rw [findTask_modifyTask_ne _ _ _ _ hka] at ht1
          exact ⟨t1, ht1, h1, h2, h3, h4, h5, h6⟩

/-- Every successful `apply` keeps the retention bound. -/
theorem apply_max_events (s s' : TaskStore) (a : Action) (ha : s.apply a = some s') :
    s'.max_events = s.max_events := by
  cases a with
  | event parent data =>
    simp only [TaskStore.apply] at ha
    split at ha <;> cases ha <;> rfl
  | taskEnd id =>
    simp only [TaskStore.apply] at ha
    split at ha <;> cases ha <;> rfl
  | cancelAll =>
    simp only [TaskStore.apply] at ha
    split at ha
    · cases ha
    · split at ha
      · cases ha
      · cases ha
        rfl
  | taskStart id parent data =>
    simp only [TaskStore.apply] at ha
    split at ha
    · cases ha
    · split at ha
      · cases ha
      · cases ha
        rfl

theorem evBound_apply (s s' : TaskStore) (a : Action)
    (h : EvBound s.max_events s.tasks) (ha : s.apply a = some s') :
    EvBound s'.max_events s'.tasks := by
  rw [apply_max_events s s' a ha]
  cases a with
  | event parent data =>
    simp only [TaskStore.apply] at ha
    split at ha
    · rename_i u hu
      cases ha
      intro k t hk
      dsimp only at hk
      by_cases hkk : k = parent.getD 0
      · rw [hkk, findTask_modifyTask_self] at hk
        cases hv : findTask s.tasks (parent.getD 0) with
        | none => rw [hv] at hk; cases hk
        | some v =>
          rw [hv] at hk
          have : t = { v with events := trimEvents s.max_events (v.events ++ [data]) } :=
            (Option.some.inj hk).symm
          rw [this]
          exact trimEvents_length_le _ _
      · rw [findTask_modifyTask_ne _ _ _ _ hkk] at hk
        exact h k t hk
    · cases ha
      exact h
  | taskEnd id =>
    simp only [TaskStore.apply] at ha
    split at ha
    · cases ha
      intro k t hk
      dsimp only at hk
      by_cases hkk : k = id
      · subst hkk
        rw [findTask_modifyTask_self] at hk
        cases hv : findTask s.tasks k with
        | none => rw [hv] at hk; cases hk
        | some v =>
          rw [hv] at hk
          have : t = { v with completed := true } := (Option.some.inj hk).symm
          rw [this]
          exact h k v hv
      · rw [findTask_modifyTask_ne _ _ _ _ hkk] at hk
        exact h k t hk
    · cases ha
      exact h
  | cancelAll =>
    simp only [TaskStore.apply] at ha
    split at ha
    · cases ha
    · split at ha
      · cases ha
      · rename_i tasks hc
        cases ha
        intro k t hk
        obtain ⟨u, hu, -, -, -, he, -, -⟩ := cancelLoop_records _ _ _ _ hc k t hk
        rw [he]
        exact h k u hu
  | taskStart id parent data =>
    simp only [TaskStore.apply] at ha
    split at ha
    · cases ha
    · rename_i pt hf
      split at ha
      · cases ha
      · rename_i pt2 hf2
        cases ha
        intro k t hk
        dsimp only at hk
        by_cases hkp : k = resolveParent s.tasks parent
        · rw [hkp, findTask_modifyTask_self] at hk
          cases hv : findTask (insertTask s.tasks id (Task.new (pt.depth + 1) (some (resolveParent s.tasks parent)) (some data))) (resolveParent s.tasks parent) with
          | none => rw [hv] at hk; cases hk
          | some v =>
            rw [hv] at hk
            have hte : t.events = v.events := by
              have : t = { v with subtasks := insertId v.subtasks id } :=
                (Option.some.inj hk).symm
              rw [this]
            rw [hte]
            by_cases hki : resolveParent s.tasks parent = id
            · rw [hki, findTask_insertTask_self] at hv
              have : v = Task.new (pt.depth + 1) (some id) (some data) :=
                (Option.some.inj hv).symm
              rw [this]
              simp [Task.new]
            · rw [findTask_insertTask_ne _ _ _ _ hki] at hv
              exact h _ v hv
        · rw [findTask_modifyTask_ne _ _ _ _ hkp] at hk
          by_cases hki : k = id
          · subst hki
            rw [findTask_insertTask_self] at hk
            have : t = Task.new (pt.depth + 1) (some (resolveParent s.tasks parent)) (some data) :=
              (Option.some.inj hk).symm
            rw [this]
            simp [Task.new]
          · rw [findTask_insertTask_ne _ _ _ _ hki] at hk
            exact h k t hk

theorem evBound_applyList (acts : List Action) (s s' : TaskStore)
    (h : EvBound s.max_events s.tasks) (ha : applyList s acts = some s') :
    EvBound s'.max_events s'.tasks := by
  induction acts generalizing s with
  | nil =>
    cases ha
    exact h
  | cons a rest ih =>
    simp only [applyList] at ha
    split at ha
    · cases ha
    · rename_i s1 h1
      exact ih s1 (evBound_apply s s1 a h h1) ha

theorem applyList_max_events (acts : List Action) (s s' : TaskStore)
    (ha : applyList s acts = some s') : s'.max_events = s.max_events := by
  induction acts generalizing s with
  | nil =>
    cases ha
    rfl
  | cons a rest ih =>
    simp only [applyList] at ha
    split at ha
    · cases ha
    · rename_i s1 h1
      rw [ih s1 ha, apply_max_events s s1 a h1]

/-! ### Root-event accumulation -/

/-- Applying a sequence of parentless `Event` actions always succeeds and
folds the push-then-trim step over the root's buffer. -/
theorem rootEvents_applyEvents (es : List Nat) (s : TaskStore) (rt : Task)
    (h : findTask s.tasks 0 = some rt) :
    ∃ s', applyList s (es.map (fun d => .event none d)) = some s' ∧
      s'.max_events = s.max_events ∧
      findTask s'.tasks 0 =
        some { rt with events := es.foldl (fun acc d => trimEvents s.max_events (acc ++ [d])) rt.events } := by
  induction es generalizing s rt with
  | nil =>
    refine ⟨s, rfl, rfl, ?_⟩
    rw [h]
    simp only [List.foldl]
  | cons d es ih =>
    simp only [List.map_cons, applyList, TaskStore.apply, Option.getD]
    rw [h]
    have hroot1 : findTask (modifyTask s.tasks 0 (fun t => { t with events := trimEvents s.max_events (t.events ++ [d]) })) 0 = some { rt with events := trimEvents s.max_events (rt.events ++ [d]) } := by
      rw [findTask_modifyTask_self, h]
      rfl
    obtain ⟨s', h1, h2, h3⟩ := ih { s with tasks := modifyTask s.tasks 0 (fun t => { t with events := trimEvents s.max_events (t.events ++ [d]) }) } { rt with events := trimEvents s.max_events (rt.events ++ [d]) } hroot1
    exact ⟨s', h1, h2, h3⟩

/-! ### `TaskStart` characterization -/

/-- What a `TaskStart` with a fresh id does: it succeeds, installs the new
record (depth = resolved parent's depth + 1, parent = the resolved id),
appends the id to the resolved parent's child set, and touches nothing else. -/
theorem apply_taskStart_char (s : TaskStore) (X : Nat) (par : Option Nat) (d : Nat)
    (pt : Task) (hpt : findTask s.tasks (resolveParent s.tasks par) = some pt)
    (hX : findTask s.tasks X = none) :
    ∃ s', s.apply (.taskStart X par d) = some s' ∧
      s'.max_events = s.max_events ∧
      findTask s'.tasks X =
        some (Task.new (pt.depth + 1) (some (resolveParent s.tasks par)) (some d)) ∧
      findTask s'.tasks (resolveParent s.tasks par) =
        some { pt with subtasks := insertId pt.subtasks X } ∧
      ∀ k, k ≠ X → k ≠ resolveParent s.tasks par →
        findTask s'.tasks k = findTask s.tasks k := by
  have hXp : X ≠ resolveParent s.tasks par := by
    intro hh
    rw [hh, hpt] at hX
    cases hX
  have hpX : resolveParent s.tasks par ≠ X := fun hh => hXp hh.symm
  have hli : findTask (insertTask s.tasks X
      (Task.new (pt.depth + 1) (some (resolveParent s.tasks par)) (some d)))
      (resolveParent s.tasks par) = some pt := by
    rw [findTask_insertTask_ne _ _ _ _ hpX]
    exact hpt
  refine ⟨{ s with tasks := modifyTask (insertTask s.tasks X (Task.new (pt.depth + 1) (some (resolveParent s.tasks par)) (some d))) (resolveParent s.tasks par) (fun p => { p with subtasks := insertId p.subtasks X }) }, ?_, rfl, ?_, ?_, ?_⟩
  · simp only [TaskStore.apply, hpt, hli]
  · dsimp only
    rw [findTask_modifyTask_ne _ _ _ _ hXp, findTask_insertTask_self]
  · dsimp only
    rw [findTask_modifyTask_self, hli]
    rfl
  · intro k hkX hkp
    dsimp only
    rw [findTask_modifyTask_ne _ _ _ _ hkp, findTask_insertTask_ne _ _ _ _ hkX]

/-! ### `remove` machinery -/

theorem removeFuel_succ (fuel : Nat) (tasks : List (Nat × Task)) (id : Nat) :
    removeFuel (fuel + 1) tasks id =
      match findTask tasks id with
      | none => tasks
      | some t => removeList fuel
          (modifyTask (eraseTask tasks id) (t.parent.getD 0)
            (fun p => { p with subtasks := p.subtasks.erase id })) t.subtasks := rfl

theorem removeList_nil (fuel : Nat) (tasks : List (Nat × Task)) :
    removeList fuel tasks [] = tasks := rfl

theorem removeList_cons (fuel : Nat) (tasks : List (Nat × Task)) (id : Nat) (rest : List Nat) :
    removeList fuel tasks (id :: rest) = removeList fuel (removeFuel fuel tasks id) rest := rfl

theorem findTask_eraseTask_some (l : List (Nat × Task)) (id x : Nat) (t : Task)
    (hnd : KeysNodup l) (h : findTask (eraseTask l id) x = some t) :
    x ≠ id ∧ findTask l x = some t := by
  by_cases hx : x = id
  · subst hx
    rw [findTask_eraseTask_self l x hnd] at h
    cases h
  · rw [findTask_eraseTask_ne _ _ _ hx] at h
    exact ⟨hx, h⟩

theorem length_removeFuel_le (fuel : Nat) (tasks : List (Nat × Task)) (id : Nat) :
    (removeFuel fuel tasks id).length ≤ tasks.length := by
  induction fuel generalizing tasks id with
  | zero => exact Nat.le_refl _
  | succ fuel ih =>
    rw [removeFuel_succ]
    split
    · exact Nat.le_refl _
    · rename_i t ht
      have hfold : ∀ (l : List Nat) (acc : List (Nat × Task)),
          (removeList fuel acc l).length ≤ acc.length := by
        intro l
        induction l with
        | nil =>
          intro acc
          exact Nat.le_refl _
        | cons c cs ihl =>
          intro acc
          rw [removeList_cons]
          exact Nat.le_trans (ihl _) (ih acc c)
      refine Nat.le_trans (hfold _ _) ?_
      rw [length_modifyTask]
      exact length_eraseTask_le tasks id

theorem keys_removeFuel_sublist (fuel : Nat) (tasks : List (Nat × Task)) (id : Nat) :
    ((removeFuel fuel tasks id).map Prod.fst).Sublist (tasks.map Prod.fst) := by
  induction fuel generalizing tasks id with
  | zero => exact List.Sublist.refl _
  | succ fuel ih =>
    rw [removeFuel_succ]
    split
    · exact List.Sublist.refl _
    · rename_i t ht
      have hfold : ∀ (l : List Nat) (acc : List (Nat × Task)),
          ((removeList fuel acc l).map Prod.fst).Sublist (acc.map Prod.fst) := by
        intro l
        induction l with
        | nil =>
          intro acc
          exact List.Sublist.refl _
        | cons c cs ihl =>
          intro acc
          rw [removeList_cons]
          exact (ihl _).trans (ih acc c)
      refine (hfold _ _).trans ?_
      rw [keys_modifyTask]
      exact keys_eraseTask_sublist tasks id

theorem keysNodup_removeFuel (fuel : Nat) (tasks : List (Nat × Task)) (id : Nat)
    (h : KeysNodup tasks) : KeysNodup (removeFuel fuel tasks id) :=
  List.Nodup.sublist (keys_removeFuel_sublist fuel tasks id) h

theorem subNodup_removeFuel (fuel : Nat) (tasks : List (Nat × Task)) (id : Nat)
    (hk : KeysNodup tasks) (h : SubNodup tasks) : SubNodup (removeFuel fuel tasks id) := by
  induction fuel generalizing tasks id with
  | zero => exact h
  | succ fuel ih =>
    rw [removeFuel_succ]
    split
    · exact h
    · rename_i t ht
      have hbk : KeysNodup (modifyTask (eraseTask tasks id) (t.parent.getD 0)
          (fun p => { p with subtasks := p.subtasks.erase id })) := by
        unfold KeysNodup
        rw [keys_modifyTask]
        exact List.Nodup.sublist (keys_eraseTask_sublist tasks id) hk
      have hbs : SubNodup (modifyTask (eraseTask tasks id) (t.parent.getD 0)
          (fun p => { p with subtasks := p.subtasks.erase id })) := by
        intro k u hu
        by_cases hkp : k = t.parent.getD 0
        · rw [hkp, findTask_modifyTask_self] at hu
          cases hv : findTask (eraseTask tasks id) (t.parent.getD 0) with
          | none => rw [hv] at hu; cases hu
          | some v =>
            rw [hv] at hu
            have : u = { v with subtasks := v.subtasks.erase id } := (Option.some.inj hu).symm
            rw [this]
            obtain ⟨-, hv2⟩ := findTask_eraseTask_some _ _ _ _ hk hv
            exact (h _ _ hv2).erase id
        · rw [findTask_modifyTask_ne _ _ _ _ hkp] at hu
          obtain ⟨-, hv2⟩ := findTask_eraseTask_some _ _ _ _ hk hu
          exact h _ _ hv2
      have hfold : ∀ (l : List Nat) (acc : List (Nat × Task)),
          KeysNodup acc → SubNodup acc → SubNodup (removeList fuel acc l) := by
        intro l
        induction l with
        | nil =>
          intro acc hk2 hs2
          exact hs2
        | cons c cs ihl =>
          intro acc hk2 hs2
          rw [removeList_cons]
          exact ihl _ (keysNodup_removeFuel fuel acc c hk2) (ih acc c hk2 hs2)
      exact hfold _ _ hbk hbs

theorem subNodup_removeList (fuel : Nat) (tasks : List (Nat × Task)) (l : List Nat)
    (hk : KeysNodup tasks) (h : SubNodup tasks) : SubNodup (removeList fuel tasks l) := by
  induction l generalizing tasks with
  | nil => exact h
  | cons c cs ih =>
    rw [removeList_cons]
    exact ih _ (keysNodup_removeFuel fuel tasks c hk) (subNodup_removeFuel fuel tasks c hk h)

theorem keysNodup_removeList (fuel : Nat) (tasks : List (Nat × Task)) (l : List Nat)
    (hk : KeysNodup tasks) : KeysNodup (removeList fuel tasks l) := by
  induction l generalizing tasks with
  | nil => exact hk
  | cons c cs ih =>
    rw [removeList_cons]
    exact ih _ (keysNodup_removeFuel fuel tasks c hk)

theorem length_removeList_le (fuel : Nat) (tasks : List (Nat × Task)) (l : List Nat) :
    (removeList fuel tasks l).length ≤ tasks.length := by
  induction l generalizing tasks with
  | nil => exact Nat.le_refl _
  | cons c cs ih =>
    rw [removeList_cons]
    exact Nat.le_trans (ih _) (length_removeFuel_le fuel tasks c)

theorem RemOk.rfl (s : List (Nat × Task)) : RemOk s s := by
  refine ⟨?_, ?_, ?_, ?_⟩
  · intro x t1 h
    exact ⟨t1, h, Eq.refl _, Eq.refl _, Eq.refl _, Eq.refl _, Eq.refl _, Eq.refl _, fun y hy => hy⟩
  · intro x t0 t1 y h0 h1 hy
    left
    rw [h0] at h1
    rw [← Option.some.inj h1]
    exact hy
  · intro x t0 h0 h1
    rw [h0] at h1
    cases h1
  · intro x t0 h0 h1
    rw [h0] at h1
    cases h1

theorem RemOk.trans {s0 s1 s2 : List (Nat × Task)} (a : RemOk s0 s1) (b : RemOk s1 s2) :
    RemOk s0 s2 := by
  refine ⟨?_, ?_, ?_, ?_⟩
  · intro x t2 h2
    obtain ⟨t1, h1, b1, b2, b3, b4, b5, b6, b7⟩ := b.keep x t2 h2
    obtain ⟨t0, h0, a1, a2, a3, a4, a5, a6, a7⟩ := a.keep x t1 h1
    exact ⟨t0, h0, by rw [b1, a1], by rw [b2, a2], by rw [b3, a3], by rw [b4, a4],
      by rw [b5, a5], by rw [b6, a6], fun y hy => a7 y (b7 y hy)⟩
  · intro x t0 t2 y h0 h2 hy
    obtain ⟨t1, h1, -, -, -, -, -, -, -⟩ := b.keep x t2 h2
    rcases a.link x t0 t1 y h0 h1 hy with hy1 | hnone
    · exact b.link x t1 t2 y h1 h2 hy1
    · right
      cases hy2 : findTask s2 y with
      | none => rfl
      | some u =>
        obtain ⟨u1, hu1, -⟩ := b.keep y u hy2
        rw [hnone] at hu1
        cases hu1
  · intro x t0 h0 h2 y hy
    cases h1 : findTask s1 x with
    | none =>
      have := a.kill x t0 h0 h1 y hy
      cases hy2 : findTask s2 y with
      | none => rfl
      | some u =>
        obtain ⟨u1, hu1, -⟩ := b.keep y u hy2
        rw [this] at hu1
        cases hu1
    | some t1 =>
      rcases a.link x t0 t1 y h0 h1 hy with hy1 | hnone
      · exact b.kill x t1 h1 h2 y hy1
      · cases hy2 : findTask s2 y with
        | none => rfl
        | some u =>
          obtain ⟨u1, hu1, -⟩ := b.keep y u hy2
          rw [hnone] at hu1
          cases hu1
  · intro x t0 h0 h2 tp htp
    cases h1 : findTask s1 x with
    | none =>
      obtain ⟨tp1, htp1, -, -, -, -, -, -, hsub⟩ := b.keep _ tp htp
      intro hmem
      exact a.detach x t0 h0 h1 tp1 htp1 (hsub x hmem)
    | some t1 =>
      obtain ⟨u0, hu0, -, e2, -, -, -, -, -⟩ := a.keep x t1 h1
      rw [hu0] at h0
      have ht01 : u0 = t0 := Option.some.inj h0
      rw [← ht01, ← e2] at htp
      exact b.detach x t1 h1 h2 tp htp

theorem findTask_rembase_id (tasks : List (Nat × Task)) (id pk : Nat)
    (hk : KeysNodup tasks) :
    findTask (modifyTask (eraseTask tasks id) pk
      (fun p => { p with subtasks := p.subtasks.erase id })) id = none := by
  by_cases hpk : id = pk
  · rw [← hpk, findTask_modifyTask_self, findTask_eraseTask_self tasks id hk]
    rfl
  · rw [findTask_modifyTask_ne _ _ _ _ hpk, findTask_eraseTask_self tasks id hk]

theorem findTask_rembase_pk (tasks : List (Nat × Task)) (id pk : Nat)
    (hpk : pk ≠ id) :
    findTask (modifyTask (eraseTask tasks id) pk
      (fun p => { p with subtasks := p.subtasks.erase id })) pk =
      (findTask tasks pk).map (fun p => { p with subtasks := p.subtasks.erase id }) := by
  rw [findTask_modifyTask_self, findTask_eraseTask_ne _ _ _ hpk]

theorem findTask_rembase_ne (tasks : List (Nat × Task)) (id pk x : Nat)
    (hx : x ≠ id) (hxpk : x ≠ pk) :
    findTask (modifyTask (eraseTask tasks id) pk
      (fun p => { p with subtasks := p.subtasks.erase id })) x = findTask tasks x := by
  rw [findTask_modifyTask_ne _ _ _ _ hxpk, findTask_eraseTask_ne _ _ _ hx]

/-- The four core facts about `removeFuel` / `removeList` with adequate fuel
(fuel at least the map size, which the `remove` entry points always pass):
they stand in `RemOk` relation to their input, a present target id is erased,
and every member of the iterated list is erased. -/
theorem remOk_main (fuel : Nat) :
    (∀ tasks id, KeysNodup tasks → SubNodup tasks → tasks.length ≤ fuel →
      RemOk tasks (removeFuel fuel tasks id)) ∧
    (∀ tasks (l : List Nat), KeysNodup tasks → SubNodup tasks → tasks.length ≤ fuel →
      RemOk tasks (removeList fuel tasks l)) ∧
    (∀ tasks id, KeysNodup tasks → SubNodup tasks → tasks.length ≤ fuel →
      findTask (removeFuel fuel tasks id) id = none ∨ findTask tasks id = none) ∧
    (∀ tasks (l : List Nat), KeysNodup tasks → SubNodup tasks → tasks.length ≤ fuel →
      ∀ y ∈ l, findTask (removeList fuel tasks l) y = none) := by
  induction fuel with
  | zero =>
    have hL0 : ∀ (l : List Nat) tasks, removeList 0 tasks l = tasks := by
      intro l
      induction l with
      | nil =>
        intro tasks
        rfl
      | cons c cs ih =>
        intro tasks
        rw [removeList_cons]
        exact ih _
    refine ⟨?_, ?_, ?_, ?_⟩
    · intro tasks id _ _ _
      exact RemOk.rfl tasks
    · intro tasks l _ _ _
      rw [hL0]
      exact RemOk.rfl tasks
    · intro tasks id _ _ hlen
      right
      have : tasks = [] := List.length_eq_zero.1 (Nat.le_zero.1 hlen)
      rw [this]
      rfl
    · intro tasks l _ _ hlen y hy
      have : tasks = [] := List.length_eq_zero.1 (Nat.le_zero.1 hlen)
      rw [hL0, this]
      rfl
  | succ fuel ih =>
    obtain ⟨ihA, ihB, ihC, ihD⟩ := ih
    have hA : ∀ tasks id, KeysNodup tasks → SubNodup tasks → tasks.length ≤ fuel + 1 →
        RemOk tasks (removeFuel (fuel + 1) tasks id) := by
      intro tasks id hk hs hlen
      rw [removeFuel_succ]
      split
      · exact RemOk.rfl tasks
      · rename_i t ht
        set base := modifyTask (eraseTask tasks id) (t.parent.getD 0)
          (fun p => { p with subtasks := p.subtasks.erase id }) with hbase
        have hbid : findTask base id = none := findTask_rembase_id tasks id _ hk
        have hkbase : KeysNodup base := by
          unfold KeysNodup
          rw [hbase, keys_modifyTask]
          exact List.Nodup.sublist (keys_eraseTask_sublist tasks id) hk
        have hbase_some : ∀ x t1, findTask base x = some t1 → x ≠ id ∧ ∃ t0,
            findTask tasks x = some t0 ∧
            t1.depth = t0.depth ∧ t1.parent = t0.parent ∧ t1.completed = t0.completed ∧
            t1.cancelled = t0.cancelled ∧ t1.data = t0.data ∧ t1.events = t0.events ∧
            (t1.subtasks = t0.subtasks ∨ t1.subtasks = t0.subtasks.erase id) := by
          intro x t1 h1
          have hxid : x ≠ id := by
            intro hh
            rw [hh, hbid] at h1
            cases h1
          refine ⟨hxid, ?_⟩
          by_cases hxpk : x = t.parent.getD 0
          · rw [hbase, hxpk] at h1
            rw [findTask_rembase_pk tasks id _ (by rw [← hxpk]; exact hxid)] at h1
            cases h0 : findTask tasks (t.parent.getD 0) with
            | none => rw [h0] at h1; cases h1
            | some t0 =>
              rw [h0, Option.map_some'] at h1
              have ht1 : t1 = { t0 with subtasks := t0.subtasks.erase id } :=
                (Option.some.inj h1).symm
              rw [ht1, hxpk]
              exact ⟨t0, h0, rfl, rfl, rfl, rfl, rfl, rfl, Or.inr rfl⟩
          · rw [hbase, findTask_rembase_ne tasks id _ x hxid hxpk] at h1
            exact ⟨t1, h1, rfl, rfl, rfl, rfl, rfl, rfl, Or.inl rfl⟩
        have hsbase : SubNodup base := by
          intro k u hu
          obtain ⟨-, t0, h0, -, -, -, -, -, -, hsub⟩ := hbase_some k u hu
          rcases hsub with he | he
          · rw [he]
            exact hs _ _ h0
          · rw [he]
            exact (hs _ _ h0).erase id
        have hlenb : base.length ≤ fuel := by
          rw [hbase, length_modifyTask]
          have := length_eraseTask_lt tasks id t ht
          omega
        have hremb : RemOk base (removeList fuel base t.subtasks) :=
          ihB base t.subtasks hkbase hsbase hlenb
        have habs : ∀ y, findTask base y = none →
            findTask (removeList fuel base t.subtasks) y = none := by
          intro y hy
          cases hr : findTask (removeList fuel base t.subtasks) y with
          | none => rfl
          | some u =>
            obtain ⟨u1, hu1, -⟩ := hremb.keep y u hr
            rw [hy] at hu1
            cases hu1
        have hbase_of : ∀ x t0, x ≠ id → findTask tasks x = some t0 →
            ∃ t1, findTask base x = some t1 ∧
            t1.depth = t0.depth ∧ t1.parent = t0.parent ∧ t1.completed = t0.completed ∧
            t1.cancelled = t0.cancelled ∧ t1.data = t0.data ∧ t1.events = t0.events ∧
            (t1.subtasks = t0.subtasks ∨ t1.subtasks = t0.subtasks.erase id) := by
          intro x t0 hxid h0
          by_cases hxpk : x = t.parent.getD 0
          · refine ⟨{ t0 with subtasks := t0.subtasks.erase id }, ?_, rfl, rfl, rfl, rfl, rfl, rfl, Or.inr rfl⟩
            rw [hbase, hxpk, findTask_rembase_pk tasks id _ (by rw [← hxpk]; exact hxid)]
            rw [← hxpk, h0, Option.map_some']
          · refine ⟨t0, ?_, rfl, rfl, rfl, rfl, rfl, rfl, Or.inl rfl⟩
            rw [hbase, findTask_rembase_ne tasks id _ x hxid hxpk]
            exact h0
        refine ⟨?_, ?_, ?_, ?_⟩
        · -- keep
          intro x t1 h1
          obtain ⟨tb, hb, k1, k2, k3, k4, k5, k6, k7⟩ := hremb.keep x t1 h1
          obtain ⟨hxid, t0, h0, b1, b2, b3, b4, b5, b6, bsub⟩ := hbase_some x tb hb
          refine ⟨t0, h0, by rw [k1, b1], by rw [k2, b2], by rw [k3, b3], by rw [k4, b4],
            by rw [k5, b5], by rw [k6, b6], ?_⟩
          intro y hy
          have hyb := k7 y hy
          rcases bsub with he | he
          · rw [he] at hyb
            exact hyb
          · rw [he] at hyb
            exact List.mem_of_mem_erase hyb
        · -- link
          intro x t0 t1 y h0 h1 hy
          have hbx : ∃ tb, findTask base x = some tb ∧
              (tb.subtasks = t0.subtasks ∨ tb.subtasks = t0.subtasks.erase id) := by
            obtain ⟨tb, hb, -⟩ := hremb.keep x t1 h1
            obtain ⟨-, t0b, h0b, -, -, -, -, -, -, bsub⟩ := hbase_some x tb hb
            rw [h0b] at h0
            have : t0b = t0 := Option.some.inj h0
            rw [this] at bsub
            exact ⟨tb, hb, bsub⟩
          obtain ⟨tb, hb, bsub⟩ := hbx
          by_cases hyid : y = id
          · right
            rw [hyid]
            exact habs id hbid
          · have hytb : y ∈ tb.subtasks := by
              rcases bsub with he | he
              · rw [he]
                exact hy
              · rw [he]
                exact (List.mem_erase_of_ne hyid).2 hy
            exact hremb.link x tb t1 y hb h1 hytb
        · -- kill
          intro x t0 h0 hnone y hy
          by_cases hxid : x = id
          · rw [hxid, ht] at h0
            have ht0 : t0 = t := (Option.some.inj h0).symm
            rw [ht0] at hy
            exact ihD base t.subtasks hkbase hsbase hlenb y hy
          · obtain ⟨tb, hb, -, -, -, -, -, -, bsub⟩ := hbase_of x t0 hxid h0
            by_cases hyid : y = id
            · rw [hyid]
              exact habs id hbid
            · have hytb : y ∈ tb.subtasks := by
                rcases bsub with he | he
                · rw [he]
                  exact hy
                · rw [he]
                  exact (List.mem_erase_of_ne hyid).2 hy
              exact hremb.kill x tb hb hnone y hytb
        · -- detach
          intro x t0 h0 hnone tp htp
          by_cases hxid : x = id
          · rw [hxid, ht] at h0
            have ht0 : t0 = t := (Option.some.inj h0).symm
            rw [ht0] at htp
            rw [hxid]
            by_cases hpkid : t.parent.getD 0 = id
            · exfalso
              have hnonepk : findTask (removeList fuel base t.subtasks) (t.parent.getD 0) = none := by
                refine habs _ ?_
                rw [hpkid]
                exact hbid
              rw [hnonepk] at htp
              cases htp
            · obtain ⟨tb, hb, -, -, -, -, -, -, bsub⟩ := hremb.keep _ tp htp
              intro hmem
              have hidtb : id ∈ tb.subtasks := bsub id hmem
              cases hq : findTask tasks (t.parent.getD 0) with
              | none =>
                rw [hbase, findTask_rembase_pk tasks id _ hpkid, hq] at hb
                cases hb
              | some q =>
                rw [hbase, findTask_rembase_pk tasks id _ hpkid, hq, Option.map_some'] at hb
                have htb : tb = { q with subtasks := q.subtasks.erase id } :=
                  (Option.some.inj hb).symm
                rw [htb] at hidtb
                have hin : id ∈ q.subtasks.erase id := hidtb
                rw [List.Nodup.mem_erase_iff (hs _ q hq)] at hin
                exact hin.1 rfl
          · obtain ⟨tb, hb, -, e2, -, -, -, -, -⟩ := hbase_of x t0 hxid h0
            rw [← e2] at htp
            exact hremb.detach x tb hb hnone tp htp
    have hB : ∀ tasks (l : List Nat), KeysNodup tasks → SubNodup tasks →
        tasks.length ≤ fuel + 1 → RemOk tasks (removeList (fuel + 1) tasks l) := by
      intro tasks l
      induction l generalizing tasks with
      | nil =>
        intro _ _ _
        exact RemOk.rfl tasks
      | cons c cs ihl =>
        intro hk hs hlen
        rw [removeList_cons]
        refine RemOk.trans (hA tasks c hk hs hlen) ?_
        refine ihl _ (keysNodup_removeFuel _ tasks c hk) (subNodup_removeFuel _ tasks c hk hs) ?_
        exact Nat.le_trans (length_removeFuel_le _ tasks c) hlen
    have hC : ∀ tasks id, KeysNodup tasks → SubNodup tasks → tasks.length ≤ fuel + 1 →
        findTask (removeFuel (fuel + 1) tasks id) id = none ∨ findTask tasks id = none := by
      intro tasks id hk hs hlen
      rw [removeFuel_succ]
      split
      · rename_i ht
        right
        exact ht
      · rename_i t ht
        left
        set base := modifyTask (eraseTask tasks id) (t.parent.getD 0)
          (fun p => { p with subtasks := p.subtasks.erase id }) with hbase
        have hbid : findTask base id = none := findTask_rembase_id tasks id _ hk
        have hkbase : KeysNodup base := by
          unfold KeysNodup
          rw [hbase, keys_modifyTask]
          exact List.Nodup.sublist (keys_eraseTask_sublist tasks id) hk
        have hsbase : SubNodup base := by
          intro k u hu
          by_cases hkp : k = t.parent.getD 0
          · rw [hkp] at hu
            rw [hbase, findTask_modifyTask_self] at hu
            cases hv : findTask (eraseTask tasks id) (t.parent.getD 0) with
            | none => rw [hv] at hu; cases hu
            | some v =>
              rw [hv] at hu
              have : u = { v with subtasks := v.subtasks.erase id } := (Option.some.inj hu).symm
              rw [this]
              obtain ⟨-, hv2⟩ := findTask_eraseTask_some _ _ _ _ hk hv
              exact (hs _ _ hv2).erase id
          · rw [hbase, findTask_modifyTask_ne _ _ _ _ hkp] at hu
            obtain ⟨-, hv2⟩ := findTask_eraseTask_some _ _ _ _ hk hu
            exact hs _ _ hv2
        have hlenb : base.length ≤ fuel := by
          rw [hbase, length_modifyTask]
          have := length_eraseTask_lt tasks id t ht
          omega
        have hremb := ihB base t.subtasks hkbase hsbase hlenb
        cases hr : findTask (removeList fuel base t.subtasks) id with
        | none => rfl
        | some u =>
          obtain ⟨u1, hu1, -⟩ := hremb.keep id u hr
          rw [hbid] at hu1
          cases hu1
    have hD : ∀ tasks (l : List Nat), KeysNodup tasks → SubNodup tasks →
        tasks.length ≤ fuel + 1 → ∀ y ∈ l, findTask (removeList (fuel + 1) tasks l) y = none := by
      intro tasks l
      induction l generalizing tasks with
      | nil =>
        intro _ _ _ y hy
        cases hy
      | cons c cs ihl =>
        intro hk hs hlen y hy
        rw [removeList_cons]
        have hk1 : KeysNodup (removeFuel (fuel + 1) tasks c) := keysNodup_removeFuel _ tasks c hk
        have hs1 : SubNodup (removeFuel (fuel + 1) tasks c) := subNodup_removeFuel _ tasks c hk hs
        have hlen1 : (removeFuel (fuel + 1) tasks c).length ≤ fuel + 1 :=
          Nat.le_trans (length_removeFuel_le _ tasks c) hlen
        rcases List.mem_cons.1 hy with rfl | hycs
        · have hnone1 : findTask (removeFuel (fuel + 1) tasks y) y = none := by
            rcases hC tasks y hk hs hlen with h | h
            · exact h
            · cases hr : findTask (removeFuel (fuel + 1) tasks y) y with
              | none => rfl
              | some u =>
                obtain ⟨u1, hu1, -⟩ := (hA tasks y hk hs hlen).keep y u hr
                rw [h] at hu1
                cases hu1
          cases hr : findTask (removeList (fuel + 1) (removeFuel (fuel + 1) tasks y) cs) y with
          | none => rfl
          | some u =>
            obtain ⟨u1, hu1, -⟩ := (hB _ cs hk1 hs1 hlen1).keep y u hr
            rw [hnone1] at hu1
            cases hu1
        · exact ihl _ hk1 hs1 hlen1 y hycs
    exact ⟨hA, hB, hC, hD⟩

theorem removeAll_cons (tasks : List (Nat × Task)) (id : Nat) (rest : List Nat) :
    removeAll tasks (id :: rest) = removeAll (removeFuel tasks.length tasks id) rest := rfl

theorem RemOk.absent {s0 s1 : List (Nat × Task)} (h : RemOk s0 s1) (y : Nat)
    (hy : findTask s0 y = none) : findTask s1 y = none := by
  cases hr : findTask s1 y with
  | none => rfl
  | some u =>
    obtain ⟨u1, hu1, -⟩ := h.keep y u hr
    rw [hy] at hu1
    cases hu1

theorem removeAll_remOk (L : List Nat) (tasks : List (Nat × Task))
    (hk : KeysNodup tasks) (hs : SubNodup tasks) : RemOk tasks (removeAll tasks L) := by
  induction L generalizing tasks with
  | nil => exact RemOk.rfl tasks
  | cons c cs ih =>
    rw [removeAll_cons]
    refine RemOk.trans ((remOk_main tasks.length).1 tasks c hk hs (Nat.le_refl _)) ?_
    exact ih _ (keysNodup_removeFuel _ tasks c hk) (subNodup_removeFuel _ tasks c hk hs)

theorem removeAll_kills (L : List Nat) (tasks : List (Nat × Task))
    (hk : KeysNodup tasks) (hs : SubNodup tasks) (c : Nat) (hc : c ∈ L) :
    findTask (removeAll tasks L) c = none := by
  induction L generalizing tasks with
  | nil => cases hc
  | cons a cs ih =>
    rw [removeAll_cons]
    have hk1 : KeysNodup (removeFuel tasks.length tasks a) := keysNodup_removeFuel _ tasks a hk
    have hs1 : SubNodup (removeFuel tasks.length tasks a) := subNodup_removeFuel _ tasks a hk hs
    rcases List.mem_cons.1 hc with rfl | hcs
    · have h1 : findTask (removeFuel tasks.length tasks c) c = none := by
        rcases (remOk_main tasks.length).2.2.1 tasks c hk hs (Nat.le_refl _) with h | h
        · exact h
        · exact ((remOk_main tasks.length).1 tasks c hk hs (Nat.le_refl _)).absent c h
      exact (removeAll_remOk cs _ hk1 hs1).absent c h1
    · exact ih _ hk1 hs1 hcs

theorem RemOk.desc_killed {s0 s1 : List (Nat × Task)} (h : RemOk s0 s1) (c d : Nat)
    (hd : Desc s0 c d) (hc : findTask s1 c = none) : findTask s1 d = none := by
  revert hc
  induction hd with
  | refl a t ha =>
    intro hc
    exact hc
  | step a ch d t ha hch hdesc ih =>
    intro hc
    exact ih (h.kill a t ha hc ch hch)

theorem desc_modify_subpreserving (tasks : List (Nat × Task)) (k : Nat) (f : Task → Task)
    (hf : ∀ t, (f t).subtasks = t.subtasks) (c d : Nat) :
    Desc (modifyTask tasks k f) c d ↔ Desc tasks c d := by
  constructor
  · intro h
    induction h with
    | refl a t ha =>
      by_cases hak : a = k
      · rw [hak, findTask_modifyTask_self] at ha
        cases h0 : findTask tasks k with
        | none => rw [h0] at ha; cases ha
        | some u =>
          rw [hak]
          exact Desc.refl k u h0
      · rw [findTask_modifyTask_ne _ _ _ _ hak] at ha
        exact Desc.refl a t ha
    | step a ch d t ha hch hdesc ih =>
      by_cases hak : a = k
      · rw [hak, findTask_modifyTask_self] at ha
        cases h0 : findTask tasks k with
        | none => rw [h0] at ha; cases ha
        | some u =>
          rw [h0] at ha
          have ht : t = f u := (Option.some.inj ha).symm
          rw [ht, hf u] at hch
          rw [hak]
          exact Desc.step k ch d u h0 hch ih
      · rw [findTask_modifyTask_ne _ _ _ _ hak] at ha
        exact Desc.step a ch d t ha hch ih
  · intro h
    induction h with
    | refl a t ha =>
      by_cases hak : a = k
      · subst hak
        refine Desc.refl a (f t) ?_
        rw [findTask_modifyTask_self, ha]
        rfl
      · refine Desc.refl a t ?_
        rw [findTask_modifyTask_ne _ _ _ _ hak]
        exact ha
    | step a ch d t ha hch hdesc ih =>
      by_cases hak : a = k
      · subst hak
        refine Desc.step a ch d (f t) ?_ ?_ ih
        · rw [findTask_modifyTask_self, ha]
          rfl
        · rw [hf t]
          exact hch
      · refine Desc.step a ch d t ?_ hch ih
        rw [findTask_modifyTask_ne _ _ _ _ hak]
        exact ha

/-! ### Render emission lemmas -/

theorem nlSum_nil : nlSum [] = 0 := rfl

theorem nlSum_append (a b : List Chunk) : nlSum (a ++ b) = nlSum a + nlSum b := by
  unfold nlSum
  rw [List.map_append, List.sum_append]

theorem sinkWrite_ok (sink : Sink) (c : Chunk) (st st' : WSt)
    (h : sinkWrite sink c st = .ok st') : st' = { ops := st.ops + 1, out := st.out ++ [c] } := by
  unfold sinkWrite at h
  split at h
  · cases h
  · exact (Except.ok.inj h).symm

theorem fwWrite_ok (sink : Sink) (c : Chunk) (fl : Nat) (st : WSt) (r : Nat × WSt)
    (h : fwWrite sink c fl st = .ok r) :
    r = (fl + nlCount c, { ops := st.ops + 1, out := st.out ++ [c] }) := by
  unfold fwWrite at h
  split at h
  · cases h
  · rename_i st2 hw
    rw [sinkWrite_ok sink c st st2 hw] at h
    exact (Except.ok.inj h).symm

theorem clearFrame_ok (sink : Sink) (fl : Nat) (st : WSt) (r : Nat × WSt)
    (h : clearFrame sink fl st = .ok r) :
    r.1 = 0 ∧ r.2.out = st.out ++ clearPart fl := by
  unfold clearFrame at h
  split at h
  · rename_i hfl
    split at h
    · cases h
    · rename_i st2 hw
      split at h
      · cases h
      · rename_i st3 hf
        have h2 := sinkWrite_ok sink _ st st2 hw
        have h3 : st3 = { st2 with ops := st2.ops + 1 } := by
          unfold sinkFlush at hf
          split at hf
          · cases hf
          · exact (Except.ok.inj hf).symm
        have hr : r = (0, st3) := (Except.ok.inj h).symm
        rw [hr, h3, h2]
        refine ⟨rfl, ?_⟩
        unfold clearPart
        rw [if_pos hfl]
  · rename_i hfl
    have hr : r = (0, st) := (Except.ok.inj h).symm
    rw [hr]
    refine ⟨rfl, ?_⟩
    unfold clearPart
    rw [if_neg hfl]
    rw [List.append_nil]

theorem renderEvLines_shape (sink : Sink) (tid : Nat) (l : List Nat) :
    ∀ fl st r, renderEvLines sink tid l fl st = .ok r →
    ∃ δ, r.2.out = st.out ++ δ ∧ r.1 = fl + nlSum δ ∧ ∀ x ∈ δ, isCtrl x = false := by
  induction l with
  | nil =>
    intro fl st r h
    have hr : r = (fl, st) := (Except.ok.inj h).symm
    rw [hr]
    refine ⟨[], by simp, by simp [nlSum_nil], ?_⟩
    intro x hx
    cases hx
  | cons d rest ih =>
    intro fl st r h
    rw [renderEvLines] at h
    split at h
    · cases h
    · rename_i fl1 st1 hw
      have hww := fwWrite_ok sink _ fl st (fl1, st1) hw
      have hfl1 : fl1 = fl + 1 := by
        have := congrArg Prod.fst hww
        simpa [nlCount] using this
      have hst1 : st1 = { ops := st.ops + 1, out := st.out ++ [Chunk.eventLine tid d] } := by
        have := congrArg Prod.snd hww
        simpa using this
      obtain ⟨δ, h1, h2, h3⟩ := ih fl1 st1 r h
      refine ⟨Chunk.eventLine tid d :: δ, ?_, ?_, ?_⟩
      · rw [h1, hst1]
        simp
      · rw [h2, hfl1]
        have : nlSum (Chunk.eventLine tid d :: δ) = 1 + nlSum δ := by
          unfold nlSum
          simp [nlCount]
        rw [this]
        omega
      · intro x hx
        rcases List.mem_cons.1 hx with rfl | hx
        · rfl
        · exact h3 x hx

theorem flushEvents_shape (sink : Sink) (l : List Nat) :
    ∀ fl st r, flushEvents sink l fl st = .ok r →
    ∃ δ, r.2.out = st.out ++ δ ∧ r.1 = fl + nlSum δ ∧ ∀ x ∈ δ, isCtrl x = false := by
  induction l with
  | nil =>
    intro fl st r h
    have hr : r = (fl, st) := (Except.ok.inj h).symm
    rw [hr]
    refine ⟨[], by simp, by simp [nlSum_nil], ?_⟩
    intro x hx
    cases hx
  | cons d rest ih =>
    intro fl st r h
    rw [flushEvents] at h
    split at h
    · cases h
    · rename_i fl1 st1 hw
      have hww := fwWrite_ok sink _ fl st (fl1, st1) hw
      have hfl1 : fl1 = fl + 1 := by
        have := congrArg Prod.fst hww
        simpa [nlCount] using this
      have hst1 : st1 = { ops := st.ops + 1, out := st.out ++ [Chunk.eventLine 0 d] } := by
        have := congrArg Prod.snd hww
        simpa using this
      obtain ⟨δ, h1, h2, h3⟩ := ih fl1 st1 r h
      refine ⟨Chunk.eventLine 0 d :: δ, ?_, ?_, ?_⟩
      · rw [h1, hst1]
        simp
      · rw [h2, hfl1]
        have : nlSum (Chunk.eventLine 0 d :: δ) = 1 + nlSum δ := by
          unfold nlSum
          simp [nlCount]
        rw [this]
        omega
      · intro x hx
        rcases List.mem_cons.1 hx with rfl | hx
        · rfl
        · exact h3 x hx

/-- What a successful default `render_task` call emits: some chunk list δ is
appended to the transcript, the frame-line counter grows by δ's newline count,
δ contains no clear sequence, and δ contains the header line of every
descendant of the rendered task (a successful return implies the recursion
had enough fuel and met no dangling ids). -/
theorem renderTaskM_full (sink : Sink) (tasks : List (Nat × Task)) :
    ∀ fuel id fl st r, renderTaskM sink tasks fuel id fl st = .ok r →
    ∃ δ, r.2.out = st.out ++ δ ∧ r.1 = fl + nlSum δ ∧ (∀ x ∈ δ, isCtrl x = false) ∧
      (∀ d, Desc tasks id d → Chunk.taskLine d ∈ δ) := by
  intro fuel
  induction fuel with
  | zero =>
    intro id fl st r h
    simp only [renderTaskM] at h
    cases h
  | succ fuel ih =>
    intro id fl st r h
    rw [renderTaskM] at h
    split at h
    · cases h
    · rename_i t ht
      split at h
      · cases h
      · rename_i fl1 st1 hw
        split at h
        · cases h
        · rename_i fl2 st2 hev
          have hww := fwWrite_ok sink _ fl st (fl1, st1) hw
          have hfl1 : fl1 = fl + 1 := by
            have := congrArg Prod.fst hww
            simpa [nlCount] using this
          have hst1 : st1 = { ops := st.ops + 1, out := st.out ++ [Chunk.taskLine id] } := by
            have := congrArg Prod.snd hww
            simpa using this
          have hev2 : ∃ δe, st2.out = st1.out ++ δe ∧ fl2 = fl1 + nlSum δe ∧
              ∀ x ∈ δe, isCtrl x = false := by
            by_cases hc : t.completed
            · rw [if_pos hc] at hev
              have hpair : (fl2, st2) = (fl1, st1) := (Except.ok.inj hev).symm
              have h1 : fl2 = fl1 := congrArg Prod.fst hpair
              have h2 : st2 = st1 := congrArg Prod.snd hpair
              refine ⟨[], by rw [h2, List.append_nil], by rw [h1]; simp [nlSum], ?_⟩
              intro x hx
              cases hx
            · rw [if_neg hc] at hev
              exact renderEvLines_shape sink id _ fl1 st1 (fl2, st2) hev
          obtain ⟨δe, he1, he2, he3⟩ := hev2
          have hfold : ∀ (l : List Nat) fl st r,
              foldSteps (fun ch fl st => renderTaskM sink tasks fuel ch fl st) l fl st = .ok r →
              ∃ δ, r.2.out = st.out ++ δ ∧ r.1 = fl + nlSum δ ∧ (∀ x ∈ δ, isCtrl x = false) ∧
                (∀ ch ∈ l, ∀ d, Desc tasks ch d → Chunk.taskLine d ∈ δ) := by
            intro l
            induction l with
            | nil =>
              intro fl st r h
              have hr : r = (fl, st) := (Except.ok.inj h).symm
              rw [hr]
              refine ⟨[], by simp, by simp [nlSum_nil], ?_, ?_⟩
              · intro x hx
                cases hx
              · intro c hc d hd
                cases hc
            | cons ch rest ihl =>
              intro fl st r h
              rw [foldSteps] at h
              split at h
              · cases h
              · rename_i fl3 st3 hstep
                obtain ⟨δ1, e1, e2, e3, e4⟩ := ih ch fl st (fl3, st3) hstep
                obtain ⟨δ2, f1, f2, f3, f4⟩ := ihl fl3 st3 r h
                refine ⟨δ1 ++ δ2, ?_, ?_, ?_, ?_⟩
                · rw [f1]
                  dsimp only at e1
                  rw [e1, List.append_assoc]
                · rw [f2]
                  dsimp only at e2
                  rw [e2, nlSum_append]
                  omega
                · intro x hx
                  rcases List.mem_append.1 hx with hx | hx
                  · exact e3 x hx
                  · exact f3 x hx
                · intro c hc d hd
                  rcases List.mem_cons.1 hc with rfl | hc
                  · exact List.mem_append_left _ (e4 d hd)
                  · exact List.mem_append_right _ (f4 c hc d hd)
          obtain ⟨δs, g1, g2, g3, g4⟩ := hfold t.subtasks fl2 st2 r h
          refine ⟨Chunk.taskLine id :: (δe ++ δs), ?_, ?_, ?_, ?_⟩
          · rw [g1, he1, hst1]
            simp
          · rw [g2, he2, hfl1]
            have : nlSum (Chunk.taskLine id :: (δe ++ δs)) = 1 + (nlSum δe + nlSum δs) := by
              unfold nlSum
              simp [nlCount]
            rw [this]
            omega
          · intro x hx
            rcases List.mem_cons.1 hx with rfl | hx
            · rfl
            · rcases List.mem_append.1 hx with hx | hx
              · exact he3 x hx
              · exact g3 x hx
          · intro d hd
            cases hd with
            | refl a t2 ha =>
              exact List.mem_cons_self _ _
            | step a ch d t2 ha hch hdesc =>
              rw [ht] at ha
              have ht2 : t2 = t := (Option.some.inj ha).symm
              rw [ht2] at hch
              refine List.mem_cons_of_mem _ (List.mem_append_right _ ?_)
              exact g4 ch hch d hdesc

theorem sinkFlush_ok (sink : Sink) (st st' : WSt) (h : sinkFlush sink st = .ok st') :
    st' = { st with ops := st.ops + 1 } := by
  unfold sinkFlush at h
  split at h
  · cases h
  · exact (Except.ok.inj h).symm

/-- What a successful `flush_root` child loop does: emits only line chunks,
splits the children by the completed-or-cancelled flag into the removal queue
and the active queue (order preserved), and fully renders (the subtree header
lines of) every completed/cancelled child. -/
theorem flushChildren_full (sink : Sink) (tasks : List (Nat × Task)) (fuel : Nat) :
    ∀ (l : List Nat) fl st act comp r,
    flushChildren sink tasks fuel l fl st act comp = .ok r →
    ∃ δ, r.2.1.out = st.out ++ δ ∧ r.1 = fl + nlSum δ ∧ (∀ x ∈ δ, isCtrl x = false) ∧
      r.2.2.1 = act ++ l.filter (fun id => ! isDone tasks id) ∧
      r.2.2.2 = comp ++ l.filter (fun id => isDone tasks id) ∧
      (∀ c ∈ l, isDone tasks c = true → ∀ d, Desc tasks c d → Chunk.taskLine d ∈ δ) := by
  intro l
  induction l with
  | nil =>
    intro fl st act comp r h
    have hr : r = (fl, st, act, comp) := (Except.ok.inj h).symm
    rw [hr]
    refine ⟨[], by simp, by simp [nlSum], ?_, by simp, by simp, ?_⟩
    · intro x hx
      cases hx
    · intro c hc d hd
      cases hc
  | cons id rest ihl =>
    intro fl st act comp r h
    rw [flushChildren] at h
    split at h
    · cases h
    · rename_i t ht
      have hdone : isDone tasks id = (t.completed || t.cancelled) := by
        unfold isDone
        rw [ht]
      split at h
      · rename_i hflag
        split at h
        · cases h
        · rename_i fl1 st1 hrend
          obtain ⟨δ1, e1, e2, e3, e4⟩ := renderTaskM_full sink tasks fuel id fl st (fl1, st1) hrend
          obtain ⟨δ2, f1, f2, f3, f4, f5, f6⟩ := ihl fl1 st1 act (comp ++ [id]) r h
          have hdid : isDone tasks id = true := by rw [hdone, hflag]
          refine ⟨δ1 ++ δ2, ?_, ?_, ?_, ?_, ?_, ?_⟩
          · rw [f1]
            dsimp only at e1
            rw [e1, List.append_assoc]
          · rw [f2]
            dsimp only at e2
            rw [e2, nlSum_append]
            omega
          · intro x hx
            rcases List.mem_append.1 hx with hx | hx
            · exact e3 x hx
            · exact f3 x hx
          · rw [f4, List.filter_cons]
            rw [show (! isDone tasks id) = false by rw [hdid]; rfl]
            simp
          · rw [f5, List.filter_cons, hdid]
            simp
          · intro c hc hcd d hd
            rcases List.mem_cons.1 hc with rfl | hc
            · exact List.mem_append_left _ (e4 d hd)
            · exact List.mem_append_right _ (f6 c hc hcd d hd)
      · rename_i hflag
        obtain ⟨δ2, f1, f2, f3, f4, f5, f6⟩ := ihl fl st (act ++ [id]) comp r h
        have hdid : isDone tasks id = false := by
          rw [hdone]
          exact Bool.of_not_eq_true hflag
        refine ⟨δ2, f1, f2, f3, ?_, ?_, ?_⟩
        · rw [f4, List.filter_cons]
          rw [show (! isDone tasks id) = true by rw [hdid]; rfl]
          simp
        · rw [f5, List.filter_cons, hdid]
          simp
        · intro c hc hcd d hd
          rcases List.mem_cons.1 hc with rfl | hc
          · rw [hdid] at hcd
            cases hcd
          · exact f6 c hc hcd d hd

theorem activeLoop_shape (sink : Sink) (tasks : List (Nat × Task)) (fuel : Nat) :
    ∀ (l : List Nat) fl st r, activeLoop sink tasks fuel l fl st = .ok r →
    ∃ δ, r.2.out = st.out ++ δ ∧ r.1 = fl + nlSum δ ∧ ∀ x ∈ δ, isCtrl x = false := by
  intro l
  induction l with
  | nil =>
    intro fl st r h
    have hr : r = (fl, st) := (Except.ok.inj h).symm
    rw [hr]
    refine ⟨[], by simp, by simp [nlSum], ?_⟩
    intro x hx
    cases hx
  | cons id rest ihl =>
    intro fl st r h
    rw [activeLoop] at h
    split at h
    · cases h
    · rename_i t ht
      split at h
      · split at h
        · cases h
        · rename_i fl1 st1 hrend
          obtain ⟨δ1, e1, e2, e3, -⟩ := renderTaskM_full sink tasks fuel id fl st (fl1, st1) hrend
          obtain ⟨δ2, f1, f2, f3⟩ := ihl fl1 st1 r h
          refine ⟨δ1 ++ δ2, ?_, ?_, ?_⟩
          · rw [f1]
            dsimp only at e1
            rw [e1, List.append_assoc]
          · rw [f2]
            dsimp only at e2
            rw [e2, nlSum_append]
            omega
          · intro x hx
            rcases List.mem_append.1 hx with hx | hx
            · exact e3 x hx
            · exact f3 x hx
      · exact ihl fl st r h

/-- What a successful `flush_root` call does: the root is present, its events
are rendered then cleared, each completed/cancelled root child is rendered in
full (all subtree header lines appear in the flush output) and queued for
removal, the remaining children are returned as the active queue, and the
returned store is the events-cleared store with the whole removal queue
removed. -/
theorem flushRoot_full (sink : Sink) (s : TaskStore) (fl : Nat) (st : WSt)
    (r : TaskStore × List Nat × Nat × WSt) (h : flushRoot sink s fl st = .ok r) :
    ∃ rt rt2 δe δc,
      findTask s.tasks 0 = some rt ∧
      findTask (modifyTask s.tasks 0 (fun t => { t with events := [] })) 0 = some rt2 ∧
      rt2 = { rt with events := [] } ∧
      r.2.2.2.out = st.out ++ (δe ++ δc) ∧
      (∀ x ∈ δe ++ δc, isCtrl x = false) ∧
      r.1 = { s with tasks := removeAll (modifyTask s.tasks 0 (fun t => { t with events := [] })) (rt2.subtasks.filter (fun id => isDone (modifyTask s.tasks 0 (fun t => { t with events := [] })) id)) } ∧
      r.2.1 = rt2.subtasks.filter (fun id => ! isDone (modifyTask s.tasks 0 (fun t => { t with events := [] })) id) ∧
      (∀ c ∈ rt2.subtasks,
        isDone (modifyTask s.tasks 0 (fun t => { t with events := [] })) c = true →
        ∀ d, Desc (modifyTask s.tasks 0 (fun t => { t with events := [] })) c d →
          Chunk.taskLine d ∈ δc) := by
  rw [flushRoot] at h
  split at h
  · cases h
  · rename_i rt hrt
    split at h
    · cases h
    · rename_i fl1 st1 hfe
      dsimp only at h
      split at h
      · cases h
      · rename_i rt2 hrt2
        split at h
        · cases h
        · rename_i fl2 st2 act comp hfc
          obtain ⟨δe, e1, e2, e3⟩ := flushEvents_shape sink rt.events fl st (fl1, st1) hfe
          obtain ⟨δc, f1, f2, f3, f4, f5, f6⟩ := flushChildren_full sink _ _ rt2.subtasks fl1 st1 [] [] (fl2, st2, act, comp) hfc
          have hrt2v : rt2 = { rt with events := [] } := by
            rw [findTask_modifyTask_self, hrt] at hrt2
            exact (Option.some.inj hrt2).symm
          have hr : r = ({ s with tasks := removeAll (modifyTask s.tasks 0 (fun t => { t with events := [] })) comp }, act, fl2, st2) :=
            (Except.ok.inj h).symm
          have hcompv : comp = rt2.subtasks.filter (fun id => isDone
              (modifyTask s.tasks 0 (fun t => { t with events := [] })) id) := by
            dsimp only at f5
            rw [f5]
            simp
          have hactv : act = rt2.subtasks.filter (fun id => ! isDone
              (modifyTask s.tasks 0 (fun t => { t with events := [] })) id) := by
            dsimp only at f4
            rw [f4]
            simp
          refine ⟨rt, rt2, δe, δc, hrt, hrt2, hrt2v, ?_, ?_, ?_, ?_, ?_⟩
          · rw [hr]
            dsimp only
            dsimp only at f1 e1
            rw [f1, e1, List.append_assoc]
          · intro x hx
            rcases List.mem_append.1 hx with hx | hx
            · exact e3 x hx
            · exact f3 x hx
          · rw [hr, hcompv]
          · rw [hr]
            dsimp only
            exact hactv
          · exact f6

/-- Full decomposition of a successful `TaskRenderer::render` call: the
transcript gains the clear sequence for the previous frame-line count (nothing
when it was 0), then the flush-pass chunks, then the active-pass chunks; only
the clear part is a control sequence; the recorded frame-line count becomes
the newline count of the active-pass chunks; and the resulting store is the
events-cleared store with every completed/cancelled root child removed. -/
theorem render_ok_full (sink : Sink) (tr tr' : TaskRenderer) (st st' : WSt)
    (h : tr.render sink st = .ok (tr', st')) :
    ∃ rt rt2 δf δa,
      findTask tr.tasks.tasks 0 = some rt ∧
      findTask (modifyTask tr.tasks.tasks 0 (fun t => { t with events := [] })) 0 = some rt2 ∧
      rt2 = { rt with events := [] } ∧
      st'.out = st.out ++ clearPart tr.frame_lines ++ δf ++ δa ∧
      (∀ x ∈ δf, isCtrl x = false) ∧ (∀ x ∈ δa, isCtrl x = false) ∧
      tr'.frame_lines = nlSum δa ∧
      tr'.tasks = { tr.tasks with tasks := removeAll (modifyTask tr.tasks.tasks 0 (fun t => { t with events := [] })) (rt2.subtasks.filter (fun id => isDone (modifyTask tr.tasks.tasks 0 (fun t => { t with events := [] })) id)) } ∧
      (∀ c ∈ rt2.subtasks,
        isDone (modifyTask tr.tasks.tasks 0 (fun t => { t with events := [] })) c = true →
        ∀ d, Desc (modifyTask tr.tasks.tasks 0 (fun t => { t with events := [] })) c d →
          Chunk.taskLine d ∈ δf) := by
  rw [TaskRenderer.render] at h
  split at h
  · cases h
  · rename_i fl0 st0 hclear
    split at h
    · cases h
    · rename_i s2 act fl1 st1 hflush
      split at h
      · cases h
      · rename_i fl2 st2 hactive
        split at h
        · cases h
        · rename_i st3 hsf
          obtain ⟨hfl0, hout0⟩ := clearFrame_ok sink tr.frame_lines st (fl0, st0) hclear
          obtain ⟨rt, rt2, δe, δc, hrt, hrt2, hrt2v, hout1, hctrl1, hstore, hact, hdesc⟩ :=
            flushRoot_full sink tr.tasks fl0 st0 (s2, act, fl1, st1) hflush
          obtain ⟨δa, ha1, ha2, ha3⟩ := activeLoop_shape sink s2.tasks (s2.tasks.length + 1)
            act 0 st1 (fl2, st2) hactive
          have hst3 : st3 = { st2 with ops := st2.ops + 1 } := sinkFlush_ok sink st2 st3 hsf
          have hpair : (tr', st') = ({ tasks := s2, frame_lines := fl2 }, st3) :=
            (Except.ok.inj h).symm
          have htr' : tr' = { tasks := s2, frame_lines := fl2 } := congrArg Prod.fst hpair
          have hst' : st' = st3 := congrArg Prod.snd hpair
          refine ⟨rt, rt2, δe ++ δc, δa, hrt, hrt2, hrt2v, ?_, hctrl1, ha3, ?_, ?_, ?_⟩
          · rw [hst', hst3]
            dsimp only
            dsimp only at ha1 hout1 hout0
            rw [ha1, hout1, hout0]
          · rw [htr']
            dsimp only
            dsimp only at ha2
            rw [ha2]
            omega
          · rw [htr']
            dsimp only
            dsimp only at hstore
            exact hstore
          · intro c hc hcd d hd
            exact List.mem_append_right _ (hdesc c hc hcd d hd)

/-! ### Structural-invariant helpers for concrete stores -/

theorem findTask_mem (l : List (Nat × Task)) (k : Nat) (t : Task)
    (h : findTask l k = some t) : (k, t) ∈ l := by
  induction l with
  | nil => cases h
  | cons kt rest ih =>
    obtain ⟨a, u⟩ := kt
    by_cases ha : a = k
    · subst ha
      rw [findTask, if_pos rfl] at h
      rw [(Option.some.inj h).symm]
      exact List.mem_cons_self _ _
    · rw [findTask, if_neg ha] at h
      exact List.mem_cons_of_mem _ (ih h)

theorem subNodup_of_mem (l : List (Nat × Task))
    (h : ∀ kv ∈ l, (Prod.snd kv).subtasks.Nodup) : SubNodup l := by
  intro k t hk
  exact h (k, t) (findTask_mem l k t hk)

theorem keysNodup_modifyTask (l : List (Nat × Task)) (id : Nat) (f : Task → Task)
    (h : KeysNodup l) : KeysNodup (modifyTask l id f) := by
  unfold KeysNodup
  rw [keys_modifyTask]
  exact h

theorem subNodup_modifyTask (l : List (Nat × Task)) (id : Nat) (f : Task → Task)
    (hf : ∀ t, (f t).subtasks = t.subtasks) (h : SubNodup l) :
    SubNodup (modifyTask l id f) := by
  intro k t hk
  by_cases hkid : k = id
  · subst hkid
    rw [findTask_modifyTask_self] at hk
    cases h0 : findTask l k with
    | none => rw [h0] at hk; cases hk
    | some u =>
      rw [h0] at hk
      have ht : t = f u := (Option.some.inj hk).symm
      rw [ht, hf u]
      exact h k u h0
  · rw [findTask_modifyTask_ne _ _ _ _ hkid] at hk
    exact h k t hk

/-! ## Claims

Each claim of the frozen list gets exactly one theorem here (plus, where
required, a counterexample and a witness). Helper lemmas live above. -/

/-- C1 counterexample: an `Event` naming an identity that is not present
(id 5 on a fresh store) is silently dropped — the store is unchanged and in
particular ROOT's event buffer stays empty, so the event is NOT attributed to
ROOT as the claim states. -/
theorem c1_counterexample :
    applyList TaskStore.new [Action.event (some 5) 7] = some TaskStore.new ∧
    ¬ ((applyList TaskStore.new [Action.event (some 5) 7]).map
        (fun s => (findTask s.tasks 0).map (fun t => t.events)) = some (some [7])) := by
  decide

/-- C1 (amended): an `Event` with an absent parent is appended — under the
active retention bound — to ROOT's event buffer, leaving every other record
unchanged; an `Event` whose parent names an identity not currently present is
silently dropped (the store is unchanged), not attributed to ROOT. -/
theorem c1_event_routing (s : TaskStore) (d q : Nat) (rt : Task)
    (hroot : findTask s.tasks 0 = some rt) (hq : findTask s.tasks q = none) :
    (∃ s', s.apply (.event none d) = some s' ∧
      findTask s'.tasks 0 = some { rt with events := trimEvents s.max_events (rt.events ++ [d]) } ∧
      ∀ k, k ≠ 0 → findTask s'.tasks k = findTask s.tasks k) ∧
    s.apply (.event (some q) d) = some s := by
  constructor
  · refine ⟨{ s with tasks := modifyTask s.tasks 0 (fun t => { t with events := trimEvents s.max_events (t.events ++ [d]) }) }, ?_, ?_, ?_⟩
    · simp only [TaskStore.apply, Option.getD, hroot]
    · dsimp only
      rw [findTask_modifyTask_self, hroot]
      rfl
    · intro k hk
      dsimp only
      rw [findTask_modifyTask_ne _ _ _ _ hk]
  · simp only [TaskStore.apply, Option.getD, hq]

/-- C1 witness: both branches of the amended statement at a concrete input. -/
theorem c1_event_routing_witness :
    TaskStore.new.apply (.event (some 5) 7) = some TaskStore.new :=
  (c1_event_routing TaskStore.new 7 5 (Task.new 0 none none) rfl rfl).2

/-- C2: after any action sequence (with the spec's id-discipline: `TaskStart`
never re-uses the always-present ROOT id), a `TaskStart` for a fresh id X with
parent P present appends X exactly once to P's ordered child set and gives X
depth = P's depth + 1; when the parent is absent or names an identity not
present, X is attached to ROOT with depth 1 (and parent cursor ROOT). -/
theorem c2_taskStart_attach (acts : List Action) (s : TaskStore) (X : Nat) (d : Nat)
    (hacts : applyList TaskStore.new acts = some s) (hz : NoZeroStart acts)
    (hX : findTask s.tasks X = none) :
    (∀ P tp, findTask s.tasks P = some tp →
      ∃ s' t', s.apply (.taskStart X (some P) d) = some s' ∧
        findTask s'.tasks P = some t' ∧ t'.subtasks.count X = 1 ∧
        (∃ tx, findTask s'.tasks X = some tx ∧ tx.depth = tp.depth + 1)) ∧
    (∀ par : Option Nat, (par = none ∨ ∃ q, par = some q ∧ findTask s.tasks q = none) →
      ∃ s' rt', s.apply (.taskStart X par d) = some s' ∧
        findTask s'.tasks 0 = some rt' ∧ rt'.subtasks.count X = 1 ∧
        (∃ tx, findTask s'.tasks X = some tx ∧ tx.depth = 1 ∧ tx.parent = some 0)) := by
  have hinv : Inv s.tasks := inv_applyList acts TaskStore.new s inv_new hz hacts
  constructor
  · intro P tp htp
    have hrp : resolveParent s.tasks (some P) = P := by
      simp [resolveParent, htp]
    have hchar := apply_taskStart_char s X (some P) d tp (by rwa [hrp]) hX
    rw [hrp] at hchar
    obtain ⟨s', happ, -, hfX, hfP, -⟩ := hchar
    refine ⟨s', { tp with subtasks := insertId tp.subtasks X }, happ, hfP, ?_, ?_⟩
    · apply count_insertId_self
      intro hmem
      exact hinv.closed P tp X htp hmem hX
    · exact ⟨_, hfX, rfl⟩
  · intro par hpar
    obtain ⟨rt, hrt, hdepth, -⟩ := hinv.rootp
    have hrp : resolveParent s.tasks par = 0 := by
      rcases hpar with rfl | ⟨q, rfl, hq⟩
      · rfl
      · simp [resolveParent, hq]
    have hchar := apply_taskStart_char s X par d rt (by rwa [hrp]) hX
    rw [hrp] at hchar
    obtain ⟨s', happ, -, hfX, hf0, -⟩ := hchar
    refine ⟨s', { rt with subtasks := insertId rt.subtasks X }, happ, hf0, ?_, ?_⟩
    · apply count_insertId_self
      intro hmem
      exact hinv.closed 0 rt X hrt hmem hX
    · refine ⟨_, hfX, ?_, rfl⟩
      simp [Task.new, hdepth]

/-- C2 witness: starting task 1 under the (present) root of a fresh store. -/
theorem c2_taskStart_attach_witness :
    ∃ s' t', TaskStore.new.apply (.taskStart 1 (some 0) 5) = some s' ∧
      findTask s'.tasks 0 = some t' ∧ t'.subtasks.count 1 = 1 ∧
      (∃ tx, findTask s'.tasks 1 = some tx ∧ tx.depth = (Task.new 0 none none).depth + 1) :=
  (c2_taskStart_attach [] TaskStore.new 1 5 rfl
    (fun id p d h => absurd h (List.not_mem_nil _)) rfl).1 0 (Task.new 0 none none) rfl

/-- C7 counterexample: under the default configuration (`TaskStore::new`,
bound 64 — not 3), four events on one task are all retained, so a non-root
buffer exceeds 3. -/
theorem c7_counterexample :
    (applyList TaskStore.new [Action.taskStart 1 none 5, Action.event (some 1) 11,
      Action.event (some 1) 12, Action.event (some 1) 13, Action.event (some 1) 14]).bind
      (fun s => (findTask s.tasks 1).map (fun t => t.events.length)) = some 4 ∧
    ¬ (4 ≤ 3) := by
  decide

/-- C7 (amended): the default retention policy is a rolling window of bound
64 (`TaskStore::new` = `with_max_events(64)`; the figure 3 is only the
default `render_task`'s display cap): appending pushes then drops the oldest
while the length exceeds `max_events`, and after any sequence of actions on a
default store every task's buffer (root included) holds at most 64 events. -/
theorem c7_retention_default (acts : List Action) (s : TaskStore)
    (ha : applyList TaskStore.new acts = some s) :
    (∀ k t, findTask s.tasks k = some t → t.events.length ≤ 64) ∧
    (∀ p u d, findTask s.tasks (p.getD 0) = some u →
      ∃ s', s.apply (.event p d) = some s' ∧
        findTask s'.tasks (p.getD 0) = some { u with events := trimEvents 64 (u.events ++ [d]) }) := by
  have h64 : s.max_events = 64 := applyList_max_events acts TaskStore.new s ha
  have h0 : EvBound TaskStore.new.max_events TaskStore.new.tasks := by
    intro k t hk
    obtain ⟨-, rfl⟩ := findTask_singleton _ _ _ hk
    simp [Task.new]
  constructor
  · intro k t hk
    have := evBound_applyList acts TaskStore.new s h0 ha k t hk
    rwa [h64] at this
  · intro p u d hu
    refine ⟨{ s with tasks := modifyTask s.tasks (p.getD 0) (fun t => { t with events := trimEvents s.max_events (t.events ++ [d]) }) }, ?_, ?_⟩
    · simp only [TaskStore.apply, hu]
    · dsimp only
      rw [findTask_modifyTask_self, hu, h64]
      rfl

/-- C7 witness: the amended statement at a concrete input (one task, one
event: the buffer is the singleton and stays within 64). -/
theorem c7_retention_default_witness :
    ∃ s', ({ tasks := [(0, ⟨0, false, false, none, none, [], [1]⟩), (1, ⟨1, false, false, some 0, some 5, [], []⟩)], max_events := 64 } : TaskStore).apply (.event (some 1) 9) = some s' ∧
      findTask s'.tasks 1 = some { (⟨1, false, false, some 0, some 5, [], []⟩ : Task) with events := trimEvents 64 ([] ++ [9]) } :=
  (c7_retention_default [Action.taskStart 1 none 5] _ rfl).2 (some 1) ⟨1, false, false, some 0, some 5, [], []⟩ 9 rfl

/-- C8 counterexample: `TaskEnd` naming the reserved ROOT identity (which the
public `TaskId::ROOT` constant allows producers to build) sets the root's
completed flag, so the flag does not remain false for every action sequence. -/
theorem c8_counterexample :
    (applyList TaskStore.new [Action.taskEnd 0]).bind
      (fun s => (findTask s.tasks 0).map (fun t => t.completed)) = some true ∧
    ¬ (true = false) := by
  decide

/-- C8 (amended): for every action sequence in which no `TaskStart` and no
`TaskEnd` carries the reserved ROOT identity, the root's completed and
cancelled flags remain false — in particular `CancelAll` cancels only tasks
reachable from ROOT's children, never ROOT itself. -/
theorem c8_root_flags (acts : List Action) (s : TaskStore)
    (hz : NoZeroId acts) (ha : applyList TaskStore.new acts = some s) :
    ∀ rt, findTask s.tasks 0 = some rt → rt.completed = false ∧ rt.cancelled = false := by
  have h0 : RootFlags TaskStore.new.tasks := by
    intro rt hrt
    obtain ⟨-, rfl⟩ := findTask_singleton _ _ _ hrt
    exact ⟨rfl, rfl⟩
  exact rootFlags_applyList acts TaskStore.new s inv_new h0 hz ha

/-- C8 witness: a start followed by `CancelAll` cancels the child but leaves
the root's flags clear. -/
theorem c8_root_flags_witness :
    (⟨0, false, false, none, none, [], [1]⟩ : Task).completed = false ∧
    (⟨0, false, false, none, none, [], [1]⟩ : Task).cancelled = false := by
  refine c8_root_flags [Action.taskStart 1 none 5, Action.cancelAll] _ ⟨?_, ?_⟩ rfl
    ⟨0, false, false, none, none, [], [1]⟩ rfl
  · intro id p d hm
    simp only [List.mem_cons, List.not_mem_nil, or_false] at hm
    rcases hm with h | h
    · cases h
      omega
    · cases h
  · intro id hm
    simp only [List.mem_cons, List.not_mem_nil, or_false] at hm
    rcases hm with h | h <;> cases h

/-- C9 counterexample: for a top-level task (child of ROOT) the view layer's
parent accessor returns a cursor (at ROOT), not an absent value. -/
theorem c9_counterexample :
    (applyList TaskStore.new [Action.taskStart 1 none 5]).map (fun s => viewParent s 1) =
      some (some (some 0)) ∧
    some (some (some 0)) ≠ some (some (none : Option Nat)) := by
  decide

/-- C9 (amended): `TaskView::parent` returns a parent cursor for every real
task — for a newly started top-level task it is the ROOT cursor; the accessor
yields an absent parent only for the virtual root record itself. -/
theorem c9_view_parent (acts : List Action) (s : TaskStore) (X : Nat) (d : Nat)
    (par : Option Nat)
    (hacts : applyList TaskStore.new acts = some s) (hz : NoZeroStart acts)
    (hX : findTask s.tasks X = none)
    (hpar : par = none ∨ ∃ q, par = some q ∧ findTask s.tasks q = none) :
    ∃ s', s.apply (.taskStart X par d) = some s' ∧
      viewParent s' X = some (some 0) ∧ viewParent s' 0 = some none := by
  have hinv : Inv s.tasks := inv_applyList acts TaskStore.new s inv_new hz hacts
  obtain ⟨rt, hrt, -, hpnone⟩ := hinv.rootp
  have hrp : resolveParent s.tasks par = 0 := by
    rcases hpar with rfl | ⟨q, rfl, hq⟩
    · rfl
    · simp [resolveParent, hq]
  have hchar := apply_taskStart_char s X par d rt (by rwa [hrp]) hX
  rw [hrp] at hchar
  obtain ⟨s', happ, -, hfX, hf0, -⟩ := hchar
  refine ⟨s', happ, ?_, ?_⟩
  · unfold viewParent
    rw [hfX]
    rfl
  · unfold viewParent
    rw [hf0, Option.map_some']
    exact congrArg some hpnone

/-- C9 witness: the amended statement at a concrete input. -/
theorem c9_view_parent_witness :
    ∃ s', TaskStore.new.apply (.taskStart 1 none 5) = some s' ∧
      viewParent s' 1 = some (some 0) ∧ viewParent s' 0 = some none :=
  c9_view_parent [] TaskStore.new 1 5 none rfl
    (fun id p d h => absurd h (List.not_mem_nil _)) rfl (Or.inl rfl)

/-- C10: the public `From<usize>` conversion panics exactly on input 0, and
for every nonzero input the produced identity is not the reserved ROOT
identity — a caller-constructed `TaskId` can never alias the virtual root. -/
theorem c10_from_usize : ∀ n : Nat, (TaskId.fromUsize n = none ↔ n = 0) ∧
    (∀ t, TaskId.fromUsize n = some t → TaskId.isRoot t = false) := by
  intro n
  cases n with
  | zero =>
    refine ⟨⟨fun _ => rfl, fun _ => rfl⟩, ?_⟩
    intro t ht
    cases ht
  | succ m =>
    refine ⟨⟨(fun h => nomatch h), (fun h => nomatch h)⟩, ?_⟩
    intro t ht
    have : t = m + 1 := (Option.some.inj ht).symm
    rw [this]
    simp [TaskId.isRoot]

/-- C10 witness: input 7 converts and is not the root identity. -/
theorem c10_from_usize_witness : TaskId.isRoot 7 = false :=
  (c10_from_usize 7).2 7 rfl

/-- C3: a root-level child that is completed or cancelled when `render` is
called has its entire subtree rendered in the flush region of that call
(every descendant's task line is among the flush chunks `δf`, which precede
the active chunks `δa`), the task and all of its descendants are removed from
the store, and the task is detached from the surviving root's child set — so
any query after that one render call finds nothing. The hypotheses are the
structural `IndexMap`/`IndexSet` duplicate-freedom guarantees plus the
well-formedness fact that a child of ROOT records ROOT as its parent (the
only way `TaskStart` ever attaches a task to ROOT). -/
theorem c3_flush_removes_done_root (sink : Sink) (tr tr' : TaskRenderer)
    (st st' : WSt) (c : Nat) (rt tc : Task)
    (hk : KeysNodup tr.tasks.tasks) (hs : SubNodup tr.tasks.tasks)
    (hrt : findTask tr.tasks.tasks 0 = some rt) (hc : c ∈ rt.subtasks)
    (htc : findTask tr.tasks.tasks c = some tc)
    (hdone : tc.completed = true ∨ tc.cancelled = true)
    (hparent : tc.parent = some 0)
    (h : tr.render sink st = .ok (tr', st')) :
    ∃ δf δa, st'.out = st.out ++ clearPart tr.frame_lines ++ δf ++ δa ∧
      (∀ d, Desc tr.tasks.tasks c d → Chunk.taskLine d ∈ δf) ∧
      (∀ d, Desc tr.tasks.tasks c d → findTask tr'.tasks.tasks d = none) ∧
      findTask tr'.tasks.tasks c = none ∧
      (∀ rt', findTask tr'.tasks.tasks 0 = some rt' → c ∉ rt'.subtasks) := by
  obtain ⟨rt0, rt2, δf, δa, hrt0, hrt2, hrt2v, hout, hctrlf, hctrla, hfl, hstore, hdesc⟩ :=
    render_ok_full sink tr tr' st st' h
  rw [hrt0] at hrt
  have hrteq : rt0 = rt := Option.some.inj hrt
  subst hrteq
  have hk2 : KeysNodup (modifyTask tr.tasks.tasks 0 (fun t => { t with events := [] })) :=
    keysNodup_modifyTask _ _ _ hk
  have hs2 : SubNodup (modifyTask tr.tasks.tasks 0 (fun t => { t with events := [] })) :=
    subNodup_modifyTask _ _ _ (fun t => rfl) hs
  have hc2 : c ∈ rt2.subtasks := by
    rw [hrt2v]
    exact hc
  have htc2 : ∃ tc2,
      findTask (modifyTask tr.tasks.tasks 0 (fun t => { t with events := [] })) c = some tc2 ∧
      tc2.completed = tc.completed ∧ tc2.cancelled = tc.cancelled ∧ tc2.parent = tc.parent := by
    by_cases hc0 : c = 0
    · subst hc0
      have htceq : tc = rt0 := by
        rw [hrt0] at htc
        exact (Option.some.inj htc).symm
      refine ⟨rt2, hrt2, ?_, ?_, ?_⟩ <;> rw [hrt2v, htceq]
    · refine ⟨tc, ?_, rfl, rfl, rfl⟩
      rw [findTask_modifyTask_ne _ _ _ _ hc0]
      exact htc
  obtain ⟨tc2, htc2f, htc2c, htc2x, htc2p⟩ := htc2
  have hdone2 : isDone (modifyTask tr.tasks.tasks 0 (fun t => { t with events := [] })) c = true := by
    unfold isDone
    rw [htc2f]
    show (tc2.completed || tc2.cancelled) = true
    rcases hdone with hd | hd
    · rw [htc2c, hd]
      rfl
    · rw [htc2x, hd]
      exact Bool.or_true _
  have hcc : c ∈ rt2.subtasks.filter
      (fun id => isDone (modifyTask tr.tasks.tasks 0 (fun t => { t with events := [] })) id) :=
    List.mem_filter.2 ⟨hc2, hdone2⟩
  have hro := removeAll_remOk (rt2.subtasks.filter
      (fun id => isDone (modifyTask tr.tasks.tasks 0 (fun t => { t with events := [] })) id))
      _ hk2 hs2
  have hkill := removeAll_kills (rt2.subtasks.filter
      (fun id => isDone (modifyTask tr.tasks.tasks 0 (fun t => { t with events := [] })) id))
      _ hk2 hs2 c hcc
  have htr' : tr'.tasks.tasks =
      removeAll (modifyTask tr.tasks.tasks 0 (fun t => { t with events := [] }))
        (rt2.subtasks.filter
          (fun id => isDone (modifyTask tr.tasks.tasks 0 (fun t => { t with events := [] })) id)) := by
    rw [hstore]
  refine ⟨δf, δa, hout, ?_, ?_, ?_, ?_⟩
  · intro d hd
    refine hdesc c hc2 hdone2 d ?_
    exact (desc_modify_subpreserving tr.tasks.tasks 0 (fun t => { t with events := [] })
      (fun t => rfl) c d).2 hd
  · intro d hd
    rw [htr']
    exact hro.desc_killed c d
      ((desc_modify_subpreserving tr.tasks.tasks 0 (fun t => { t with events := [] })
        (fun t => rfl) c d).2 hd) hkill
  · rw [htr']
    exact hkill
  · intro rt' hrt'
    rw [htr'] at hrt'
    have hp0 : tc2.parent.getD 0 = 0 := by
      rw [htc2p, hparent]
      rfl
    exact hro.detach c tc2 htc2f hkill rt' (by rw [hp0]; exact hrt')

/-- C3 witness: a store with a completed child 1 of ROOT, which itself has a
child 2. The one render renders both task lines in the flush region and both
records are gone afterwards, with 1 detached from the surviving root. -/
theorem c3_flush_removes_done_root_witness :
    ∃ δf δa,
      ([Chunk.taskLine 1, Chunk.taskLine 2] : List Chunk) = [] ++ clearPart 0 ++ δf ++ δa ∧
      (∀ d, Desc [(0, ⟨0, false, false, none, none, [], [1]⟩),
        (1, ⟨1, true, false, some 0, some 5, [], [2]⟩),
        (2, ⟨2, false, false, some 1, some 6, [], []⟩)] 1 d → Chunk.taskLine d ∈ δf) ∧
      (∀ d, Desc [(0, ⟨0, false, false, none, none, [], [1]⟩),
        (1, ⟨1, true, false, some 0, some 5, [], [2]⟩),
        (2, ⟨2, false, false, some 1, some 6, [], []⟩)] 1 d →
        findTask [(0, ⟨0, false, false, none, none, [], []⟩)] d = none) ∧
      findTask [(0, ⟨0, false, false, none, none, [], []⟩)] 1 = none ∧
      (∀ rt', findTask [(0, ⟨0, false, false, none, none, [], []⟩)] 0 = some rt' →
        1 ∉ rt'.subtasks) :=
  c3_flush_removes_done_root pureSink
    { tasks := { tasks := [(0, ⟨0, false, false, none, none, [], [1]⟩),
        (1, ⟨1, true, false, some 0, some 5, [], [2]⟩),
        (2, ⟨2, false, false, some 1, some 6, [], []⟩)], max_events := 64 }, frame_lines := 0 }
    { tasks := { tasks := [(0, ⟨0, false, false, none, none, [], []⟩)], max_events := 64 },
      frame_lines := 0 }
    { ops := 0, out := [] } { ops := 3, out := [Chunk.taskLine 1, Chunk.taskLine 2] }
    1 ⟨0, false, false, none, none, [], [1]⟩ ⟨1, true, false, some 0, some 5, [], [2]⟩
    (by unfold KeysNodup; decide) (subNodup_of_mem _ (by decide)) rfl (by decide) rfl
    (Or.inl rfl) rfl rfl

/-- C4: frame-line round-trip. A successful render splits its transcript into
the clear sequence for the previous count, flush chunks and active chunks
`δa1`, and records `nlSum δa1` — the number of newline-terminated lines the
active pass wrote — as the new count. The next successful render then opens
with exactly `clearPart (nlSum δa1)`: when that count is positive its very
first chunk is the clear sequence `\r ESC[LA ESC[2K ESC[J` with cursor-up
count exactly `L = nlSum δa1` (and `clear_frame` resets the counter to 0, so
the new recorded count again reflects only the new active chunks); when `L` is
0 nothing is cleared and no control chunk appears anywhere in the second
transcript. -/
theorem c4_frame_roundtrip (sink sink2 : Sink) (tr tr1 tr2 : TaskRenderer)
    (out1 out2 : List Chunk)
    (h1 : renderRun sink tr = .ok (tr1, out1))
    (h2 : renderRun sink2 tr1 = .ok (tr2, out2)) :
    ∃ δf1 δa1 δ2,
      out1 = clearPart tr.frame_lines ++ δf1 ++ δa1 ∧
      tr1.frame_lines = nlSum δa1 ∧
      out2 = clearPart (nlSum δa1) ++ δ2 ∧
      (∀ x ∈ δ2, isCtrl x = false) ∧
      (0 < nlSum δa1 → out2.head? = some (Chunk.clearSeq (nlSum δa1))) ∧
      (nlSum δa1 = 0 → ∀ x ∈ out2, isCtrl x = false) := by
  rw [renderRun] at h1 h2
  split at h1
  · cases h1
  · rename_i tr1x st1 hr1
    have hp1 := Except.ok.inj h1
    have htr1 : tr1x = tr1 := congrArg Prod.fst hp1
    have hout1 : st1.out = out1 := congrArg Prod.snd hp1
    subst htr1
    split at h2
    · cases h2
    · rename_i tr2x st2 hr2
      have hp2 := Except.ok.inj h2
      have hout2 : st2.out = out2 := congrArg Prod.snd hp2
      obtain ⟨rtA, rtA2, δf1, δa1, -, -, -, houtA, hcf1, hca1, hflA, -, -⟩ :=
        render_ok_full sink tr tr1x { ops := 0, out := [] } st1 hr1
      obtain ⟨rtB, rtB2, δf2, δa2, -, -, -, houtB, hcf2, hca2, hflB, -, -⟩ :=
        render_ok_full sink2 tr1x tr2x { ops := 0, out := [] } st2 hr2
      refine ⟨δf1, δa1, δf2 ++ δa2, ?_, hflA, ?_, ?_, ?_, ?_⟩
      · rw [← hout1, houtA]
        simp [List.append_assoc]
      · rw [← hout2, houtB, hflA]
        simp [List.append_assoc]
      · intro x hx
        rcases List.mem_append.1 hx with hx | hx
        · exact hcf2 x hx
        · exact hca2 x hx
      · intro hpos
        rw [← hout2, houtB, hflA]
        unfold clearPart
        rw [if_pos hpos]
        rfl
      · intro hz x hx
        rw [← hout2, houtB, hflA, hz] at hx
        simp only [clearPart] at hx
        rw [if_neg (Nat.lt_irrefl 0)] at hx
        simp only [List.nil_append, List.mem_append] at hx
        rcases hx with hx | hx
        · exact hcf2 x hx
        · exact hca2 x hx

/-- C4 witness: a store with one active root child. The first render draws its
one task line (1 newline), the second render opens with the clear sequence for
exactly 1 line and redraws it. -/
theorem c4_frame_roundtrip_witness :
    ∃ δf1 δa1 δ2,
      ([Chunk.taskLine 1] : List Chunk) = clearPart 0 ++ δf1 ++ δa1 ∧
      (1 : Nat) = nlSum δa1 ∧
      ([Chunk.clearSeq 1, Chunk.taskLine 1] : List Chunk) = clearPart (nlSum δa1) ++ δ2 ∧
      (∀ x ∈ δ2, isCtrl x = false) ∧
      (0 < nlSum δa1 →
        ([Chunk.clearSeq 1, Chunk.taskLine 1] : List Chunk).head? =
          some (Chunk.clearSeq (nlSum δa1))) ∧
      (nlSum δa1 = 0 → ∀ x ∈ ([Chunk.clearSeq 1, Chunk.taskLine 1] : List Chunk),
        isCtrl x = false) :=
  c4_frame_roundtrip pureSink pureSink
    { tasks := { tasks := [(0, ⟨0, false, false, none, none, [], [1]⟩),
        (1, ⟨1, false, false, some 0, some 5, [], []⟩)], max_events := 64 }, frame_lines := 0 }
    { tasks := { tasks := [(0, ⟨0, false, false, none, none, [], [1]⟩),
        (1, ⟨1, false, false, some 0, some 5, [], []⟩)], max_events := 64 }, frame_lines := 1 }
    { tasks := { tasks := [(0, ⟨0, false, false, none, none, [], [1]⟩),
        (1, ⟨1, false, false, some 0, some 5, [], []⟩)], max_events := 64 }, frame_lines := 1 }
    [Chunk.taskLine 1] [Chunk.clearSeq 1, Chunk.taskLine 1] rfl rfl

/-- C5 (code bug): the claim says any output-sink write error during a render
call propagates to the caller. But `FrameWriter::clear_frame` writes the clear
sequence with `write!(self, ...).unwrap()`, so when the sink's write fails
during frame clearing the library PANICS instead of returning the io error:
with a previous frame of 3 lines and a sink whose first write fails, the
modeled render ends in the panic outcome `.fatal`, which is a different
outcome from the propagated-error outcome `.ioErr`. -/
theorem c5_sink_error_propagates :
    TaskRenderer.render (fun i => i == 0)
        { tasks := TaskStore.new, frame_lines := 3 } { ops := 0, out := [] } =
      .error .fatal ∧
    RErr.fatal ≠ RErr.ioErr := by
  decide

/-- C6 counterexample: ROOT is NOT exempt from retention between renders.
65 parentless events on a fresh default store leave only 64 in ROOT's buffer
(the oldest is trimmed away immediately), with no render call in between. -/
theorem c6_counterexample :
    (applyList TaskStore.new ((List.range 65).map (fun i => Action.event none i))).map
        (fun s => (findTask s.tasks 0).map (fun t => t.events.length)) = some (some 64) ∧
    ¬ (64 = 65) := by
  decide

/-- C6 (amended): root events obey the same immediate push-then-trim retention
as everyone else — after a sequence of parentless events on a fresh store,
ROOT's buffer is the trim-fold of the sequence (bound 64), not the whole
sequence. What does hold is the flush half of the claim: a successful render
clears ROOT's buffer, so the surviving root record always leaves a render call
with no buffered events. -/
theorem c6_root_retention :
    (∀ es : List Nat,
      ∃ s, applyList TaskStore.new (es.map (fun d => Action.event none d)) = some s ∧
        findTask s.tasks 0 = some { Task.new 0 none none with
          events := es.foldl (fun acc d => trimEvents 64 (acc ++ [d])) [] }) ∧
    (∀ sink : Sink, ∀ tr tr' : TaskRenderer, ∀ st st' : WSt,
      KeysNodup tr.tasks.tasks → SubNodup tr.tasks.tasks →
      tr.render sink st = .ok (tr', st') →
      ∀ rt', findTask tr'.tasks.tasks 0 = some rt' → rt'.events = []) := by
  constructor
  · intro es
    obtain ⟨s', h1, h2, h3⟩ :=
      rootEvents_applyEvents es TaskStore.new (Task.new 0 none none) rfl
    exact ⟨s', h1, h3⟩
  · intro sink tr tr' st st' hk hs h rt' hrt'
    obtain ⟨rt, rt2, δf, δa, hrt0, hrt2, hrt2v, -, -, -, -, hstore, -⟩ :=
      render_ok_full sink tr tr' st st' h
    have htr' : tr'.tasks.tasks =
        removeAll (modifyTask tr.tasks.tasks 0 (fun t => { t with events := [] }))
          (rt2.subtasks.filter
            (fun id => isDone (modifyTask tr.tasks.tasks 0 (fun t => { t with events := [] })) id)) := by
      rw [hstore]
    rw [htr'] at hrt'
    have hk2 := keysNodup_modifyTask tr.tasks.tasks 0 (fun t => { t with events := [] }) hk
    have hs2 := subNodup_modifyTask tr.tasks.tasks 0 (fun t => { t with events := [] })
      (fun t => rfl) hs
    obtain ⟨t0, ht0, -, -, -, -, -, hev, -⟩ :=
      (removeAll_remOk _ _ hk2 hs2).keep 0 rt' hrt'
    rw [hrt2] at ht0
    have ht0v : t0 = rt2 := (Option.some.inj ht0).symm
    rw [hev, ht0v, hrt2v]

/-- C6 witness: a store whose root holds one buffered event renders fine and
the surviving root record leaves the call with an empty buffer. -/
theorem c6_root_retention_witness :
    ((⟨0, false, false, none, none, [], []⟩ : Task)).events = [] :=
  c6_root_retention.2 pureSink
    { tasks := { tasks := [(0, ⟨0, false, false, none, none, [5], []⟩)], max_events := 64 },
      frame_lines := 0 }
    { tasks := { tasks := [(0, ⟨0, false, false, none, none, [], []⟩)], max_events := 64 },
      frame_lines := 0 }
    { ops := 0, out := [] } { ops := 2, out := [Chunk.eventLine 0 5] }
    (by unfold KeysNodup; decide) (subNodup_of_mem _ (by decide)) rfl
    ⟨0, false, false, none, none, [], []⟩ rfl

end TraceTally
